import Mathlib

/-
Shallow embedding of the draft-lottery / draft-order / schedule core of the
zengm repository: the functions `updateChances`, `lotterySort`, `genOrder`,
`genOrderFantasy`, `getRookieSalaries`, `selectPlayer`, `untilUserOrEnd`
(worker draft module) and `setSchedule` (worker/core/season/setSchedule.ts).

JS numbers are modelled as exact rationals (ℚ); float rounding is out of
scope.  Stateful code is modelled by explicit state passing: the object
stores become lists, the random sources become explicit parameters (streams
of draws / shuffles).  A JS `TypeError` on an undefined access, and
nontermination of an unbounded rejection loop, are both modelled by `none`.
JS `Array.prototype.sort` is a stable sort with a numeric comparator `cmp`;
it is embedded as the stable `List.insertionSort` with the total preorder
`cmp a b ≤ 0`, which produces the same list.
-/

/-- Team snapshot fed into the lottery (attrs tid/cid, seasonAttrs winp /
playoffRoundsWon).  A negative `playoffRoundsWon` is the did-not-make-playoffs
sentinel (JS: the `>= 0` test fails).  `randVal` is the per-call random
tiebreaker that `lotterySort` assigns before sorting. -/
structure Team where
  tid : Nat
  winp : ℚ
  playoffRoundsWon : Int
  randVal : Int
deriving DecidableEq, Repr

instance : Inhabited Team := ⟨⟨0, 0, 0, 0⟩⟩

/-- DraftPick record of the draftPicks object store. -/
structure DraftPick where
  dpid : Nat
  tid : Nat
  originalTid : Nat
  round : Nat
  season : Nat
deriving DecidableEq, Repr

/-- One entry of the resolved draft order (also the pick objects consumed by
`untilUserOrEnd`). -/
structure OrderEntry where
  round : Nat
  pick : Nat
  tid : Nat
  originalTid : Nat
deriving DecidableEq, Repr

/-- One persisted schedule row; `day` is computed by `setSchedule`. -/
structure SchedEntry where
  day : Nat
  homeTid : Int
  awayTid : Int
deriving DecidableEq, Repr

/-- The slice of a ratings row that `selectPlayer` reads. -/
structure RatingRow where
  pot : Nat
  ovr : Nat
  skills : List String
deriving DecidableEq, Repr

/-- The write-once draft-metadata record on a player. -/
structure DraftRec where
  round : Nat
  pick : Nat
  tid : Nat
  year : Nat
  originalTid : Nat
  pot : Nat
  ovr : Nat
  skills : List String
deriving DecidableEq, Repr

/-- Player contract; `amount := none` models the JS `undefined` that results
from reading the rookie-salary table out of range. -/
structure Contract where
  amount : Option ℚ
  exp : Int
deriving DecidableEq, Repr

/-- Draft-relevant slice of a player record. -/
structure Player where
  pid : Nat
  tid : Int
  value : ℚ
  ratings : List RatingRow
  draft : Option DraftRec
  contract : Option Contract
  statsRows : Nat
deriving DecidableEq, Repr

/-- League-global parameters read by `selectPlayer` / `getRookieSalaries`. -/
structure GameState where
  phase : Int
  nextPhase : Option Int
  season : Nat
  numTeams : Nat
  minContract : ℚ
  maxContract : ℚ
deriving Repr

/-- Rational that is an integer value; the lottery weight tables stay
integer-valued through the final averaging pass. -/
def IsIntQ (q : ℚ) : Prop := ∃ z : ℤ, q = (z : ℚ)

/-- Positional map carrying the element index, written as a plain structural
recursion (the JS loops carry the index variable). -/
def mapWithIdx (f : Nat → α → β) : Nat → List α → List β
  | _, [] => []
  | i, a :: l => f i a :: mapWithIdx f (i + 1) l

/-- Modelled from the spec: the PHASE constant table lives outside src/ (in
the common module).  The embedded code only compares `phase` against
FANTASY_DRAFT and `nextPhase` against PLAYOFFS; the concrete numerals do not
matter to any claim. -/
def PHASE_FANTASY_DRAFT : Int := -1

/-- Modelled from the spec: see `PHASE_FANTASY_DRAFT`. -/
def PHASE_PLAYOFFS : Int := 3

/- ---------------------------------------------------------------------- -/
/- RookieContractModel: getRookieSalaries                                  -/
/- ---------------------------------------------------------------------- -/

/-- The literal 60-pick base salary table of `getRookieSalaries` (thousands
of dollars per year). -/
def rookieSalariesBase : List ℚ :=
  [5000, 4500, 4000, 3500, 3000, 2750, 2500, 2250, 2000, 1900, 1800, 1700,
   1600, 1500, 1400, 1300, 1200, 1100, 1000, 1000, 1000, 1000, 1000, 1000,
   1000, 1000, 1000, 1000, 1000, 1000, 500, 500, 500, 500, 500, 500, 500,
   500, 500, 500, 500, 500, 500, 500, 500, 500, 500, 500, 500, 500, 500,
   500, 500, 500, 500, 500, 500, 500, 500, 500]

/-- The two length-adjustment while loops of `getRookieSalaries`: push the
minimum salary 500 onto the end while the table is shorter than
`2 * numTeams`, pop from the end while it is longer. -/
def adjustRookieTable (numTeams : Nat) : List ℚ :=
  if rookieSalariesBase.length < 2 * numTeams then
    rookieSalariesBase ++ List.replicate (2 * numTeams - rookieSalariesBase.length) 500
  else
    rookieSalariesBase.take (2 * numTeams)

/-- JS `Math.round`: round half toward positive infinity. -/
def jsRound (x : ℚ) : Int := ⌊x + 1 / 2⌋

/-- The per-entry rescaling loop body of `getRookieSalaries`: subtract the
base minimum 500, scale so the max is a quarter of the max contract, add the
league minimum back, and round to a multiple of 10. -/
def scaleRookie (minContract maxContract : ℚ) (s : ℚ) : ℚ :=
  ((jsRound (((s - 500) * ((1 / 4 : ℚ) * maxContract - minContract) / 4500 + minContract) / 10) : ℚ)) * 10

/-- getRookieSalaries: length-adjusted base table, rescaled unless the league
financial parameters are at their defaults (500 / 20000). -/
def getRookieSalaries (numTeams : Nat) (minContract maxContract : ℚ) : List ℚ :=
  let rs := adjustRookieTable numTeams
  if minContract ≠ 500 ∨ maxContract ≠ 20000 then
    rs.map (scaleRookie minContract maxContract)
  else rs

/- ---------------------------------------------------------------------- -/
/- ScheduleAssigner: setSchedule                                           -/
/- ---------------------------------------------------------------------- -/

/-- The day-assignment loop of `setSchedule`.  `dayTids` is the JS `Set` of
team ids already scheduled on the current day, modelled as a membership
list; `prevDayASG` records whether the previous matchup was the all-star
sentinel pair (-1, -2). -/
def schedGo (day : Nat) (dayTids : List Int) (prevDayASG : Bool) :
    List (Int × Int) → List SchedEntry
  | [] => []
  | (homeTid, awayTid) :: rest =>
    let allStarGame : Bool := awayTid == -2 && homeTid == -1
    if dayTids.contains homeTid || dayTids.contains awayTid || allStarGame || prevDayASG then
      ⟨day + 1, homeTid, awayTid⟩ :: schedGo (day + 1) [homeTid, awayTid] allStarGame rest
    else
      ⟨day, homeTid, awayTid⟩ :: schedGo day (dayTids ++ [homeTid, awayTid]) allStarGame rest

/-- setSchedule's persisted rows for an input list of (homeTid, awayTid)
pairs (the store is cleared first; the upcoming-games UI push is a read-only
projection and is not part of the persisted state). -/
def setScheduleDays (tids : List (Int × Int)) : List SchedEntry :=
  schedGo 1 [] false tids

/-- All team ids appearing among the matchups of day `d`. -/
def dayIds (entries : List SchedEntry) (d : Nat) : List Int :=
  (entries.filter (fun e => e.day == d)).flatMap (fun e => [e.homeTid, e.awayTid])

/-- Drop the all-star placeholder ids -1 and -2. -/
def nonSentinelIds (ids : List Int) : List Int :=
  ids.filter (fun t => t != -1 && t != -2)

/-- The all-star sentinel matchup. -/
def isASG (e : SchedEntry) : Prop := e.homeTid = -1 ∧ e.awayTid = -2

instance (e : SchedEntry) : Decidable (isASG e) :=
  inferInstanceAs (Decidable (e.homeTid = -1 ∧ e.awayTid = -2))

/-- Claim C4 stated verbatim for one input list: within any one day no team
id appears twice (ignoring the sentinels), and an all-star matchup and the
matchup immediately following it each occupy a day by themselves. -/
def scheduleClaim (tids : List (Int × Int)) : Prop :=
  (∀ d ∈ (setScheduleDays tids).map SchedEntry.day,
     (nonSentinelIds (dayIds (setScheduleDays tids) d)).Nodup) ∧
  (∀ i : Fin (setScheduleDays tids).length,
     isASG ((setScheduleDays tids).get i) →
     ((setScheduleDays tids).filter
        (fun e => e.day == ((setScheduleDays tids).get i).day)).length = 1 ∧
     (∀ j : Fin (setScheduleDays tids).length, (j : Nat) = (i : Nat) + 1 →
        ((setScheduleDays tids).filter
           (fun e => e.day == ((setScheduleDays tids).get j).day)).length = 1))

/- ---------------------------------------------------------------------- -/
/- LotteryAllocator: updateChances and the winner draw                     -/
/- ---------------------------------------------------------------------- -/

/-- The standard 14-team lottery base weight table of `genOrder`. -/
def standardChances : List ℚ :=
  [250, 199, 156, 119, 88, 63, 43, 28, 17, 11, 8, 7, 6, 5]

/-- JS `%` on the values that occur here (a nonnegative total and a positive
count), where truncating and flooring division agree. -/
def ratMod (a b : ℚ) : ℚ := a - b * ⌊a / b⌋

/-- The averaging assignment loop of `updateChances` over the index range
[tc, tc + val): every slot gets the quotient, and while the running
remainder is positive one extra unit is handed out and the remainder
decremented, so the slot at offset j gets the extra unit iff j < remainder. -/
def applyAvg (chances : List ℚ) (tc val : Nat) (isFinal : Bool) : List ℚ :=
  let seg := (chances.drop tc).take val
  let total := seg.sum
  let remainder : ℚ := if isFinal then ratMod total (val : ℚ) else 0
  let newVal : ℚ := (total - remainder) / (val : ℚ)
  chances.take tc
    ++ (List.range seg.length).map (fun (j : ℕ) => newVal + (if (j : ℚ) < remainder then 1 else 0))
    ++ chances.drop (tc + val)

/-- Group loop of `updateChances`: `groups` is the (winp, count) list sorted
ascending by winp.  A group of size > 1 that would run past the end of the
chances array is truncated to end at the boundary; after each group the
cursor advances and the loop breaks once it reaches the end. -/
def updateChancesGo (isFinal : Bool) : List ℚ → Nat → List (ℚ × Nat) → List ℚ
  | chances, _, [] => chances
  | chances, tc, (_, cnt) :: rest =>
    let val := if 1 < cnt ∧ chances.length ≤ tc + cnt then chances.length - tc else cnt
    let chances' := if 1 < cnt then applyAvg chances tc val isFinal else chances
    if chances.length ≤ tc + val then chances'
    else updateChancesGo isFinal chances' (tc + val) rest

/-- Ascending order on winp keys, used for the `_.sortBy(Number(key))` step. -/
def winpLe (a b : ℚ) : Prop := a ≤ b

instance : DecidableRel winpLe := fun a b => inferInstanceAs (Decidable (a ≤ b))

/-- The `_.countBy` / `_.pairs` / `_.sortBy` pipeline of `updateChances`:
the distinct winp values, ascending, each with the number of teams sharing
it.  (`countBy` keys by the decimal string of the float, and `Number` is its
inverse on those strings, so only the rational value matters; the string
map's insertion order is irrelevant because the keys are distinct.) -/
def winpGroups (teams : List Team) : List (ℚ × Nat) :=
  (List.insertionSort winpLe (teams.map Team.winp).dedup).map
    (fun w => (w, (teams.map Team.winp).count w))

/-- updateChances: divide the lottery weights between teams with tied
records.  When `isFinal` the integer remainder is handed out one unit at a
time; otherwise the remainder variable stays 0 and each tied slot receives
the exact (possibly fractional) quotient. -/
def updateChances (chances : List ℚ) (teams : List Team) (isFinal : Bool) : List ℚ :=
  updateChancesGo isFinal chances 0 (winpGroups teams)

/-- The in-place cumulative-sum conversion of the chances array. -/
def cumsumGo (acc : ℚ) : List ℚ → List ℚ
  | [] => []
  | c :: rest => (acc + c) :: cumsumGo (acc + c) rest

/-- Cumulative sums: entry i becomes the sum of entries 0..i. -/
def cumsum (l : List ℚ) : List ℚ := cumsumGo 0 l

/-- The percentage-chance array `chancePct` computed by `genOrder` before the
cumulative-sum conversion. -/
def chancePct (chances : List ℚ) : List ℚ :=
  chances.map (fun c => c / chances.sum * 100)

/-- The while loop of `genOrder` that draws the first three picks.  Each
draw d selects the first index whose cumulative chance strictly exceeds d;
an index already drawn is rejected and resampled.  `none` models the JS
TypeError when a draw exceeds every bucket or the winning index has no team
(`teams[i].randVal` on undefined), and nontermination when the finite draw
stream runs out before three distinct winners are found. -/
def pickFirstThree (cum : List ℚ) (numT : Nat) : List Nat → List Nat → Option (List Nat)
  | [], acc => if 3 ≤ acc.length then some acc else none
  | d :: ds, acc =>
    if 3 ≤ acc.length then some acc
    else
      match cum.findIdx? (fun c => decide ((d : ℚ) < c)) with
      | none => none
      | some i =>
        if i ∈ acc then pickFirstThree cum numT ds acc
        else if i < numT then pickFirstThree cum numT ds (acc ++ [i]) else none

/- ---------------------------------------------------------------------- -/
/- DraftOrderBuilder: lotterySort, genPicks, genOrder, genOrderFantasy     -/
/- ---------------------------------------------------------------------- -/

/-- The numeric comparator of `lotterySort`: playoff teams after non-playoff
teams, then ascending winp, then the random tiebreaker. -/
def lotteryCmp (a b : Team) : ℚ :=
  let r1 : ℚ :=
    if 0 ≤ a.playoffRoundsWon ∧ ¬ 0 ≤ b.playoffRoundsWon then 1
    else if ¬ 0 ≤ a.playoffRoundsWon ∧ 0 ≤ b.playoffRoundsWon then -1
    else 0
  let r2 : ℚ := if r1 = 0 then a.winp - b.winp else r1
  if r2 = 0 then ((a.randVal - b.randVal : Int) : ℚ) else r2

/-- Keep `a` no later than `b` iff the comparator is ≤ 0. -/
def lotteryLe (a b : Team) : Prop := lotteryCmp a b ≤ 0

instance : DecidableRel lotteryLe := fun a b => inferInstanceAs (Decidable (lotteryCmp a b ≤ 0))

/-- lotterySort: assign each team the next value of the shuffled range
(`rv i` is `randValues[i]`), then stable-sort by the lottery comparator. -/
def lotterySort (rv : Nat → Int) (teams : List Team) : List Team :=
  List.insertionSort lotteryLe (mapWithIdx (fun i t => { t with randVal := rv i }) 0 teams)

/-- The round-2 comparator of `genOrder`: ascending winp with the random
tiebreaker reversed. -/
def round2Cmp (a b : Team) : ℚ :=
  let r : ℚ := a.winp - b.winp
  if r = 0 then ((b.randVal - a.randVal : Int) : ℚ) else r

/-- Keep `a` no later than `b` iff the round-2 comparator is ≤ 0. -/
def round2Le (a b : Team) : Prop := round2Cmp a b ≤ 0

instance : DecidableRel round2Le := fun a b => inferInstanceAs (Decidable (round2Cmp a b ≤ 0))

/-- genPicks: the defensive regeneration of a default pick set, one pick per
team per round 1-2 with tid = originalTid; the cache assigns fresh
increasing dpids. -/
def genPicksDefault (season numTeams : Nat) : List DraftPick :=
  (List.range numTeams).flatMap
    (fun tid => [⟨2 * tid, tid, tid, 1, season⟩, ⟨2 * tid + 1, tid, tid, 2, season⟩])

/-- Lookup in `draftPicksIndexed`: the build loop writes picks in fetch
order, so for a given (originalTid, round) the last matching pick wins;
`none` means the JS access would hit undefined. -/
def lookupPick (picks : List DraftPick) (t r : Nat) : Option Nat :=
  ((picks.filter (fun p => p.originalTid == t && p.round == r)).getLast?).map DraftPick.tid

/-- The deletion loop at the end of `genOrder`: every fetched pick is
deleted from the store by its dpid. -/
def deletePicks (store : List DraftPick) (fetched : List DraftPick) : List DraftPick :=
  fetched.foldl (fun st dp => st.filter (fun p => p.dpid != dp.dpid)) store

/-- The lottery portion of the round-1 order: picks 1-3 go to the three
lottery winners (`f3` holds their indices into the sorted team list). -/
def lotteryEntriesOf (picks : List DraftPick) (teams2 : List Team) (f3 : List Nat) :
    List OrderEntry :=
  mapWithIdx (fun i idx =>
    { round := 1, pick := i + 1,
      tid := (lookupPick picks ((teams2.getD idx default).tid) 1).getD 0,
      originalTid := (teams2.getD idx default).tid : OrderEntry }) 0 f3

/-- The remainder of round 1: picks 4.. go to the non-winners in sorted
order. -/
def restEntriesOf (picks : List DraftPick) (teams2 : List Team) (f3 : List Nat) :
    List OrderEntry :=
  mapWithIdx (fun j i =>
    { round := 1, pick := 4 + j,
      tid := (lookupPick picks ((teams2.getD i default).tid) 1).getD 0,
      originalTid := (teams2.getD i default).tid : OrderEntry }) 0
    ((List.range teams2.length).filter (fun i => decide (i ∉ f3)))

/-- Round 2: the teams re-sorted by the round-2 comparator, one pick each. -/
def round2EntriesOf (picks : List DraftPick) (teams2 : List Team) : List OrderEntry :=
  mapWithIdx (fun i t =>
    { round := 2, pick := i + 1,
      tid := (lookupPick picks t.tid 2).getD 0,
      originalTid := t.tid : OrderEntry }) 0 (List.insertionSort round2Le teams2)

/-- genOrder.  `teams0` is the team list fetched for the season, `rv` the
shuffled range consumed by `lotterySort`, `draws` the stream of
randInt(0,999) lottery draws, `picks0` the draftPicks records fetched for
the season.  Returns the draft order written to the draftOrder store and
the draftPicks records remaining for the season; `none` models a thrown
TypeError (including the mid-build throw on a team with no indexed pick,
checked up front here) or a draw stream that never yields three distinct
winners.  The log-only side effects (logLotteryChances, logLotteryWinners)
and the chancePct percentages do not affect the persisted result and are
omitted. -/
def genOrder (season numTeams : Nat) (teams0 : List Team) (rv : Nat → Int)
    (draws : List Nat) (picks0 : List DraftPick) :
    Option (List OrderEntry × List DraftPick) :=
  let teams1 := lotterySort rv teams0
  let chances1 := updateChances standardChances teams1 true
  let cum := cumsum chances1
  match pickFirstThree cum teams1.length draws [] with
  | none => none
  | some f3 =>
    let teams2 := f3.foldl
      (fun ts i => List.modify (fun t => { t with randVal := t.randVal - 30 }) i ts) teams1
    let picks := if picks0.isEmpty then genPicksDefault season numTeams else picks0
    if teams2.all (fun t => (lookupPick picks t.tid 1).isSome && (lookupPick picks t.tid 2).isSome) then
      some (lotteryEntriesOf picks teams2 f3 ++ restEntriesOf picks teams2 f3
        ++ round2EntriesOf picks teams2, deletePicks picks picks)
    else none

/-- The rejection-resampling loop of `genOrderFantasy`: `sh i` is the result
of the (i+1)-st call to random.shuffle (`sh 0` is the initial shuffle);
`fuel` is the remaining retry budget 1000 - i.  Returns the accepted tids
and the number of reshuffles performed.  The JS read `tids[position - 1]`
of an out-of-range slot yields undefined, which never equals the user tid. -/
def retryShuffles (userTid pos1 : Nat) (sh : Nat → List Nat) :
    Nat → List Nat → Nat → List Nat × Nat
  | 0, cur, i => (cur, i)
  | fuel + 1, cur, i =>
    if cur.get? pos1 ≠ some userTid then retryShuffles userTid pos1 sh fuel (sh (i + 1)) (i + 1)
    else (cur, i)

/-- The snake rounds of `genOrderFantasy`: emit one pick per team for each
round, reversing the team order after every round. -/
def snakeRounds (round rounds : Nat) (tids : List Nat) : List OrderEntry :=
  match rounds with
  | 0 => []
  | n + 1 =>
    mapWithIdx (fun i tid => { round := round, pick := i + 1, tid := tid, originalTid := tid }) 0 tids
      ++ snakeRounds (round + 1) n tids.reverse

/-- genOrderFantasy: shuffle the team ids; when a position constraint in
range is requested, reshuffle (budget 1000) until the user team sits at
that position; then emit the 12-round snake order.  Returns the order
together with the number of reshuffles performed. -/
def genOrderFantasy (numTeams userTid : Nat) (position : Option Int)
    (sh : Nat → List Nat) : List OrderEntry × Nat :=
  let tids0 := sh 0
  let tc :=
    match position with
    | some p =>
      if 1 ≤ p ∧ p ≤ (numTeams : Int) then retryShuffles userTid (p - 1).toNat sh 1000 tids0 0
      else (tids0, 0)
    | none => (tids0, 0)
  (snakeRounds 1 12 tc.1, tc.2)

/- ---------------------------------------------------------------------- -/
/- DraftProgressionEngine: selectPlayer, untilUserOrEnd                    -/
/- ---------------------------------------------------------------------- -/

/-- selectPlayer on the fetched player: team assignment always; the draft
record and the rookie contract only outside the fantasy-draft phase; a
stats row in a fantasy draft when the season is still live (the JS `null`
nextPhase coerces to 0 in the ≤ comparison).  `none` models the TypeError
on `p.ratings[0]` for a player with no ratings row.  The salary-log write
of `player.setContract` and the news-feed logEvent are store side effects
outside the modelled player record. -/
def selectPlayer (gs : GameState) (pick : OrderEntry) (p : Player) : Option Player := do
  let p1 := { p with tid := (pick.tid : Int) }
  let p2 ←
    if gs.phase ≠ PHASE_FANTASY_DRAFT then
      match p.ratings with
      | [] => none
      | r0 :: _ =>
        let dr : DraftRec :=
          { round := pick.round, pick := pick.pick, tid := pick.tid, year := gs.season,
            originalTid := pick.originalTid, pot := r0.pot, ovr := r0.ovr, skills := r0.skills }
        some { p1 with draft := some dr }
    else some p1
  let p3 :=
    if gs.phase ≠ PHASE_FANTASY_DRAFT then
      let rookieSalaries := getRookieSalaries gs.numTeams gs.minContract gs.maxContract
      let idx : Int := (pick.pick : Int) - 1 + (gs.numTeams : Int) * ((pick.round : Int) - 1)
      let amount := if 0 ≤ idx then rookieSalaries.get? idx.toNat else none
      { p2 with contract := some { amount := amount, exp := (gs.season : Int) + (4 - (pick.round : Int)) } }
    else p2
  let p4 :=
    if gs.phase = PHASE_FANTASY_DRAFT ∧ gs.nextPhase.getD 0 ≤ PHASE_PLAYOFFS then
      { p3 with statsRows := p3.statsRows + 1 }
    else p3
  some p4

/-- Keep `a` no later than `b` iff the comparator `b.value - a.value` is
≤ 0: the descending-value sort of the undrafted pool. -/
def valueDescLe (a b : Player) : Prop := b.value - a.value ≤ 0

instance : DecidableRel valueDescLe := fun a b => inferInstanceAs (Decidable (b.value - a.value ≤ 0))

/-- The descending-value sort of the undrafted pool in `untilUserOrEnd`. -/
def playersSorted (players : List Player) : List Player :=
  List.insertionSort valueDescLe players

/-- The recursive autoSelectPlayer loop of `untilUserOrEnd`.  `sels k` is
the k-th value of `Math.floor(Math.abs(random.gauss(0, 2)))`; the selected
player is removed from the in-memory pool and the pick consumed.  A
front-of-queue pick owned by a user team with autoPlaySeasons exactly 0 is
put back and the call returns.  `none` models the TypeError on
`playersAll[selection].pid` when the drawn index is outside the pool.  The
per-pick store writes are modelled by `selectPlayer` separately; this loop
carries the queue, the candidate pool and the drafted pids. -/
def autoSelect (userTids : List Nat) (autoPlaySeasons : Int) (sels : Nat → Nat) :
    Nat → List Player → List OrderEntry → List Nat →
    Option (List OrderEntry × List Player × List Nat)
  | _, players, [], pids => some ([], players, pids)
  | k, players, pick :: rest, pids =>
    if pick.tid ∈ userTids ∧ autoPlaySeasons = 0 then some (pick :: rest, players, pids)
    else
      match players.get? (sels k) with
      | none => none
      | some p =>
        autoSelect userTids autoPlaySeasons sels (k + 1)
          (players.eraseIdx (sels k)) rest (pids ++ [p.pid])

/-- untilUserOrEnd: sort the undrafted pool descending by value and run the
auto-selection loop from the front of the draft-order queue.  Returns the
final queue (the draftOrder cache row), the remaining pool, and the pids
drafted during the call. -/
def untilUserOrEnd (userTids : List Nat) (autoPlaySeasons : Int) (sels : Nat → Nat)
    (players : List Player) (queue : List OrderEntry) :
    Option (List OrderEntry × List Player × List Nat) :=
  autoSelect userTids autoPlaySeasons sels 0 (playersSorted players) queue []

/-- A concrete 14-team lottery field with pairwise distinct win percentages,
used to exercise the lottery draw. -/
def teams14 : List Team :=
  [⟨0, 0, -1, 0⟩, ⟨1, 1, -1, 0⟩, ⟨2, 2, -1, 0⟩, ⟨3, 3, -1, 0⟩, ⟨4, 4, -1, 0⟩,
   ⟨5, 5, -1, 0⟩, ⟨6, 6, -1, 0⟩, ⟨7, 7, -1, 0⟩, ⟨8, 8, -1, 0⟩, ⟨9, 9, -1, 0⟩,
   ⟨10, 10, -1, 0⟩, ⟨11, 11, -1, 0⟩, ⟨12, 12, -1, 0⟩, ⟨13, 13, -1, 0⟩]

/-- A concrete three-team league (distinct win percentages) used to run
`genOrder` end to end. -/
def teamsW : List Team := [⟨0, 0, -1, 0⟩, ⟨1, 1, -1, 0⟩, ⟨2, 2, -1, 0⟩]

/-- A complete pick store for `teamsW`: one pick per team per round. -/
def picksW : List DraftPick :=
  [⟨0, 0, 0, 1, 2017⟩, ⟨1, 0, 0, 2, 2017⟩, ⟨2, 1, 1, 1, 2017⟩,
   ⟨3, 1, 1, 2, 2017⟩, ⟨4, 2, 2, 1, 2017⟩, ⟨5, 2, 2, 2, 2017⟩]

/-- The order `genOrder` produces from `teamsW`, `picksW`, the identity
shuffle and draws 0 / 250 / 449. -/
def orderW : List OrderEntry :=
  [⟨1, 1, 0, 0⟩, ⟨1, 2, 1, 1⟩, ⟨1, 3, 2, 2⟩,
   ⟨2, 1, 0, 0⟩, ⟨2, 2, 1, 1⟩, ⟨2, 3, 2, 2⟩]

/- ====================================================================== -/
/- Theorems                                                               -/
/- ====================================================================== -/

theorem adjustRookieTable_length (n : Nat) : (adjustRookieTable n).length = 2 * n := by
  unfold adjustRookieTable
  split
  · rename_i hlt
    simp only [List.length_append, List.length_replicate]
    omega
  · rename_i hge
    simp only [List.length_take]
    omega

theorem getRookieSalaries_length (n : Nat) (m M : ℚ) :
    (getRookieSalaries n m M).length = 2 * n := by
  unfold getRookieSalaries
  split <;> simp [adjustRookieTable_length]

/-- C10: for every numTeams ≥ 1, getRookieSalaries returns an array of length
exactly 2 * numTeams: when 2 * numTeams exceeds the 60-entry base table,
minimum-salary (500) entries are appended at the end, and when it is smaller,
entries are removed from the end (the smallest salaries), before any
min/max-contract rescaling. -/
theorem getRookieSalaries_length_spec (numTeams : Nat) (minContract maxContract : ℚ)
    (h : 1 ≤ numTeams) :
    (getRookieSalaries numTeams minContract maxContract).length = 2 * numTeams ∧
    (rookieSalariesBase.length ≤ 2 * numTeams →
      adjustRookieTable numTeams
        = rookieSalariesBase
            ++ List.replicate (2 * numTeams - rookieSalariesBase.length) (500 : ℚ)) ∧
    (2 * numTeams ≤ rookieSalariesBase.length →
      rookieSalariesBase
        = adjustRookieTable numTeams ++ rookieSalariesBase.drop (2 * numTeams)) := by
  refine ⟨getRookieSalaries_length _ _ _, ?_, ?_⟩
  · intro hle
    unfold adjustRookieTable
    split
    · rfl
    · rename_i hnot
      have h2 : 2 * numTeams = rookieSalariesBase.length := by omega
      simp [h2]
  · intro hge
    unfold adjustRookieTable
    split
    · rename_i hlt
      have h2 : 2 * numTeams = rookieSalariesBase.length := by omega
      simp [h2]
    · exact (List.take_append_drop _ _).symm

/-- Witness for C10 at numTeams = 31, the default contract bounds. -/
theorem getRookieSalaries_length_spec_witness :
    (getRookieSalaries 31 500 20000).length = 2 * 31 ∧
    (rookieSalariesBase.length ≤ 2 * 31 →
      adjustRookieTable 31
        = rookieSalariesBase
            ++ List.replicate (2 * 31 - rookieSalariesBase.length) (500 : ℚ)) ∧
    (2 * 31 ≤ rookieSalariesBase.length →
      rookieSalariesBase = adjustRookieTable 31 ++ rookieSalariesBase.drop (2 * 31)) :=
  getRookieSalaries_length_spec 31 500 20000 (by decide)

theorem rookieSalariesBase_desc :
    List.Pairwise (fun a b : ℚ => b ≤ a) rookieSalariesBase := by decide

theorem rookieSalariesBase_ge_500 : ∀ x ∈ rookieSalariesBase, (500 : ℚ) ≤ x := by decide

theorem adjustRookieTable_desc (n : Nat) :
    List.Pairwise (fun a b : ℚ => b ≤ a) (adjustRookieTable n) := by
  unfold adjustRookieTable
  split
  · refine List.pairwise_append.mpr ⟨rookieSalariesBase_desc, ?_, ?_⟩
    · exact List.pairwise_replicate.mpr (Or.inr le_rfl)
    · intro x hx y hy
      have hy' : y = 500 := List.eq_of_mem_replicate hy
      rw [hy']
      exact rookieSalariesBase_ge_500 x hx
  · exact List.Pairwise.sublist (List.take_sublist _ _) rookieSalariesBase_desc

theorem scaleRookie_mono (m M : ℚ) (h : m ≤ M / 4) (a b : ℚ) (hba : b ≤ a) :
    scaleRookie m M b ≤ scaleRookie m M a := by
  have hA : 0 ≤ (1 / 4 : ℚ) * M - m := by linarith
  have h1 : (b - 500) * ((1 / 4 : ℚ) * M - m) ≤ (a - 500) * ((1 / 4 : ℚ) * M - m) :=
    mul_le_mul_of_nonneg_right (by linarith) hA
  unfold scaleRookie jsRound
  refine mul_le_mul_of_nonneg_right ?_ (by norm_num)
  exact_mod_cast Int.floor_mono (by linarith)

/-- C8 counterexample: with minContract = 1000 and maxContract = 2000 the scale
factor (0.25 * maxContract - minContract) / 4500 is negative, and the two-pick
table comes out ascending: [500, 560]. -/
theorem getRookieSalaries_descending_refuted :
    getRookieSalaries 1 1000 2000 = [500, 560] ∧
    ¬ List.Chain' (fun a b : ℚ => b ≤ a) (getRookieSalaries 1 1000 2000) := by
  have h : getRookieSalaries 1 1000 2000 = [500, 560] := by
    norm_num [getRookieSalaries, adjustRookieTable, rookieSalariesBase, scaleRookie, jsRound]
  refine ⟨h, ?_⟩
  rw [h]
  norm_num [List.chain'_cons]

/-- C8 (amended): with minContract = 500 and maxContract = 20000,
getRookieSalaries returns the literal base table adjusted only in length; for
any other bounds every entry is rescaled, and provided
minContract ≤ maxContract / 4 (nonnegative scale factor, as in any league
where the minimum contract is at most a quarter of the maximum) the resulting
table remains monotonically descending. -/
theorem getRookieSalaries_scaling_spec (numTeams : Nat) (minContract maxContract : ℚ)
    (h : minContract ≤ maxContract / 4) :
    (minContract = 500 ∧ maxContract = 20000 →
      getRookieSalaries numTeams minContract maxContract = adjustRookieTable numTeams) ∧
    (¬ (minContract = 500 ∧ maxContract = 20000) →
      getRookieSalaries numTeams minContract maxContract
        = (adjustRookieTable numTeams).map (scaleRookie minContract maxContract)) ∧
    List.Chain' (fun a b : ℚ => b ≤ a) (getRookieSalaries numTeams minContract maxContract) := by
  refine ⟨?_, ?_, ?_⟩
  · rintro ⟨h1, h2⟩
    simp [getRookieSalaries, h1, h2]
  · intro hne
    have hor : minContract ≠ 500 ∨ maxContract ≠ 20000 := by tauto
    unfold getRookieSalaries
    rw [if_pos hor]
  · refine List.chain'_iff_pairwise.mpr ?_
    unfold getRookieSalaries
    split
    · exact List.Pairwise.map _ (fun a b hab => scaleRookie_mono _ _ h _ _ hab)
        (adjustRookieTable_desc _)
    · exact adjustRookieTable_desc _

/-- Witness for C8 at numTeams = 30, minContract = 1000, maxContract = 20000. -/
theorem getRookieSalaries_scaling_spec_witness :
    (¬ ((1000 : ℚ) = 500 ∧ (20000 : ℚ) = 20000) →
      getRookieSalaries 30 1000 20000
        = (adjustRookieTable 30).map (scaleRookie 1000 20000)) ∧
    List.Chain' (fun a b : ℚ => b ≤ a) (getRookieSalaries 30 1000 20000) :=
  ⟨(getRookieSalaries_scaling_spec 30 1000 20000 (by norm_num)).2.1,
   (getRookieSalaries_scaling_spec 30 1000 20000 (by norm_num)).2.2⟩

theorem mapWithIdx_length (f : Nat → α → β) : ∀ (i : Nat) (l : List α),
    (mapWithIdx f i l).length = l.length := by
  intro i l
  induction l generalizing i with
  | nil => rfl
  | cons a l ih => simp [mapWithIdx, ih]

theorem snakeRounds_length : ∀ (n r : Nat) (tids : List Nat),
    (snakeRounds r n tids).length = n * tids.length := by
  intro n
  induction n with
  | zero => intro r tids; simp [snakeRounds]
  | succ n ih =>
    intro r tids
    simp only [snakeRounds, List.length_append, mapWithIdx_length, ih, List.length_reverse]
    ring

theorem retryShuffles_count_le (u p : Nat) (sh : Nat → List Nat) :
    ∀ (fuel : Nat) (cur : List Nat) (i : Nat),
      (retryShuffles u p sh fuel cur i).2 ≤ i + fuel := by
  intro fuel
  induction fuel with
  | zero => intro cur i; simp [retryShuffles]
  | succ n ih =>
    intro cur i
    unfold retryShuffles
    split
    · exact le_trans (ih (sh (i + 1)) (i + 1)) (by omega)
    · simp

theorem retryShuffles_shape (u p : Nat) (sh : Nat → List Nat) :
    ∀ (fuel : Nat) (cur : List Nat) (i : Nat),
      (retryShuffles u p sh fuel cur i).1 = cur ∨
      ∃ j, (retryShuffles u p sh fuel cur i).1 = sh j := by
  intro fuel
  induction fuel with
  | zero => intro cur i; exact Or.inl rfl
  | succ n ih =>
    intro cur i
    unfold retryShuffles
    split
    · rcases ih (sh (i + 1)) (i + 1) with h | ⟨j, hj⟩
      · exact Or.inr ⟨i + 1, h⟩
      · exact Or.inr ⟨j, hj⟩
    · exact Or.inl rfl

theorem retryShuffles_all_fail (u p : Nat) (sh : Nat → List Nat) :
    ∀ (fuel i : Nat), (∀ j, i ≤ j → j < i + fuel → (sh j).get? p ≠ some u) →
      retryShuffles u p sh fuel (sh i) i = (sh (i + fuel), i + fuel) := by
  intro fuel
  induction fuel with
  | zero => intro i _; rfl
  | succ n ih =>
    intro i hall
    unfold retryShuffles
    rw [if_pos (hall i le_rfl (by omega))]
    have h2 := ih (i + 1) (fun j hj1 hj2 => hall j (by omega) (by omega))
    rw [h2]
    have harith : i + 1 + n = i + (n + 1) := by omega
    rw [harith]

/-- C9: for every requested human-team position P with 1 ≤ P ≤ numTeams, the
rejection-resampling loop of genOrderFantasy performs at most 1000 reshuffles;
the routine always completes, producing the full 12-round snake order, and if
the budget is exhausted without placing the user team at P the final
unconstrained shuffle is accepted as-is (non-fatal). -/
theorem genOrderFantasy_retry_bound (numTeams userTid : Nat) (P : Int)
    (sh : Nat → List Nat) (h1 : 1 ≤ P) (h2 : P ≤ (numTeams : Int)) :
    (genOrderFantasy numTeams userTid (some P) sh).2 ≤ 1000 ∧
    ((∀ i, (sh i).length = numTeams) →
      (genOrderFantasy numTeams userTid (some P) sh).1.length = 12 * numTeams) ∧
    ((∀ j, j < 1000 → (sh j).get? (P - 1).toNat ≠ some userTid) →
      genOrderFantasy numTeams userTid (some P) sh = (snakeRounds 1 12 (sh 1000), 1000)) := by
  have hcond : 1 ≤ P ∧ P ≤ (numTeams : Int) := ⟨h1, h2⟩
  refine ⟨?_, ?_, ?_⟩
  · simp only [genOrderFantasy, if_pos hcond]
    exact le_trans (retryShuffles_count_le _ _ _ 1000 (sh 0) 0) (by omega)
  · intro hlen
    simp only [genOrderFantasy, if_pos hcond]
    rw [snakeRounds_length]
    rcases retryShuffles_shape userTid (P - 1).toNat sh 1000 (sh 0) 0 with h | ⟨j, hj⟩
    · rw [h, hlen]
    · rw [hj, hlen]
  · intro hfail
    have h3 := retryShuffles_all_fail userTid (P - 1).toNat sh 1000 0
      (fun j _ hj2 => hfail j (by omega))
    simp only [genOrderFantasy, if_pos hcond]
    rw [h3]

/-- Witness for C9: two teams, user team 0, position 1, a constant shuffle
stream that already satisfies the constraint. -/
theorem genOrderFantasy_retry_bound_witness :
    (genOrderFantasy 2 0 (some 1) (fun _ => [0, 1])).2 ≤ 1000 ∧
    (genOrderFantasy 2 0 (some 1) (fun _ => [0, 1])).1.length = 12 * 2 :=
  ⟨(genOrderFantasy_retry_bound 2 0 1 (fun _ => [0, 1]) (by decide) (by decide)).1,
   (genOrderFantasy_retry_bound 2 0 1 (fun _ => [0, 1]) (by decide) (by decide)).2.1
     (fun _ => rfl)⟩

/-- C5: when the loop of untilUserOrEnd encounters a front-of-queue pick whose
owning tid is in userTids and autoPlaySeasons = 0 (exact equality), it returns
without selecting a player for that pick, and the queue it returns still has
the un-consumed pick at the front: the pick is put back, not destroyed. -/
theorem untilUserOrEnd_pauses_on_user_pick (userTids : List Nat) (sels : Nat → Nat)
    (k : Nat) (players : List Player) (pick : OrderEntry) (rest : List OrderEntry)
    (pids : List Nat) (hu : pick.tid ∈ userTids) :
    autoSelect userTids 0 sels k players (pick :: rest) pids
      = some (pick :: rest, players, pids) ∧
    untilUserOrEnd userTids 0 sels players (pick :: rest)
      = some (pick :: rest, playersSorted players, []) := by
  constructor
  · unfold autoSelect
    rw [if_pos ⟨hu, rfl⟩]
  · unfold untilUserOrEnd autoSelect
    rw [if_pos ⟨hu, rfl⟩]

/-- Witness for C5: user team 7 owns the front pick. -/
theorem untilUserOrEnd_pauses_on_user_pick_witness :
    autoSelect [7] 0 (fun _ => 0) 0 [] [⟨1, 1, 7, 7⟩] []
      = some ([⟨1, 1, 7, 7⟩], [], []) ∧
    untilUserOrEnd [7] 0 (fun _ => 0) [] [⟨1, 1, 7, 7⟩]
      = some ([⟨1, 1, 7, 7⟩], playersSorted [], []) :=
  untilUserOrEnd_pauses_on_user_pick [7] (fun _ => 0) 0 [] ⟨1, 1, 7, 7⟩ [] [] (by decide)

/-- C6 counterexample: one undrafted player, one non-user pick, and a drawn
selection index of 5: the unclamped access playersAll[5] hits a missing
element and the call fails, refuting that the index always stays within the
pool's bounds. -/
theorem autoSelect_unclamped_crash :
    untilUserOrEnd [] 0 (fun _ => 5) [⟨1, -2, 1, [], none, none, 0⟩] [⟨1, 1, 0, 0⟩] = none := by
  rfl

/-- C6 (amended): the selection index floor(|gaussian(0,2)|) is used without
any clamp: at an automatic pick the indexed access into the descending-value
pool succeeds precisely when the drawn value is below the current pool size,
and a draw at or beyond the pool size makes the access yield a missing
element, failing the call. -/
theorem autoSelect_index_bound (userTids : List Nat) (aps : Int) (sels : Nat → Nat)
    (k : Nat) (players : List Player) (pick : OrderEntry) (rest : List OrderEntry)
    (pids : List Nat) (hnp : ¬ (pick.tid ∈ userTids ∧ aps = 0)) :
    (players.length ≤ sels k →
      autoSelect userTids aps sels k players (pick :: rest) pids = none) ∧
    (∀ hlt : sels k < players.length,
      autoSelect userTids aps sels k players (pick :: rest) pids
        = autoSelect userTids aps sels (k + 1) (players.eraseIdx (sels k)) rest
            (pids ++ [(players.get ⟨sels k, hlt⟩).pid])) := by
  constructor
  · intro hge
    have hnone : players.get? (sels k) = none := by
      rw [List.get?_eq_none]
      exact hge
    simp only [autoSelect]
    rw [if_neg hnp, hnone]
  · intro hlt
    have hsome : players.get? (sels k) = some (players.get ⟨sels k, hlt⟩) :=
      List.get?_eq_get hlt
    simp only [autoSelect]
    rw [if_neg hnp, hsome]

/-- Witness for C6 (amended), both regimes: a draw of 5 against a pool of one
player fails; a draw of 0 consumes the pick and the top player. -/
theorem autoSelect_index_bound_witness :
    autoSelect [] 0 (fun _ => 5) 0 [⟨1, -2, 1, [], none, none, 0⟩] [⟨1, 1, 0, 0⟩] [] = none ∧
    autoSelect [] 0 (fun _ => 0) 0 [⟨1, -2, 1, [], none, none, 0⟩] [⟨1, 1, 0, 0⟩] []
      = autoSelect [] 0 (fun _ => 0) 1 [] [] [1] :=
  ⟨(autoSelect_index_bound [] 0 (fun _ => 5) 0 [⟨1, -2, 1, [], none, none, 0⟩] ⟨1, 1, 0, 0⟩ [] []
      (by decide)).1 (by decide),
   (autoSelect_index_bound [] 0 (fun _ => 0) 0 [⟨1, -2, 1, [], none, none, 0⟩] ⟨1, 1, 0, 0⟩ [] []
      (by decide)).2 (by decide)⟩

/-- C7: for every pick selected outside the fantasy-draft phase (pick number
in 1..numTeams, round 1 or 2, nonempty ratings), selectPlayer writes the
draft-metadata record and a rookie contract with duration 4 - round years
(expiration season + (4 - round)) whose amount is the rookie-salary-table
entry at flattened index pick.pick - 1 + numTeams * (pick.round - 1), an
in-range index; in the fantasy-draft phase neither the contract nor the
draft-metadata record is written (the team assignment still is). -/
theorem selectPlayer_contract_spec (gs : GameState) (pick : OrderEntry) (p : Player) :
    (∀ r0 rs, p.ratings = r0 :: rs → 1 ≤ pick.pick → pick.pick ≤ gs.numTeams →
      (pick.round = 1 ∨ pick.round = 2) → gs.phase ≠ PHASE_FANTASY_DRAFT →
      pick.pick - 1 + gs.numTeams * (pick.round - 1)
          < (getRookieSalaries gs.numTeams gs.minContract gs.maxContract).length ∧
      ((getRookieSalaries gs.numTeams gs.minContract gs.maxContract).get?
          (pick.pick - 1 + gs.numTeams * (pick.round - 1))).isSome ∧
      selectPlayer gs pick p = some
        { p with
            tid := (pick.tid : Int)
            draft := some { round := pick.round, pick := pick.pick, tid := pick.tid,
                            year := gs.season, originalTid := pick.originalTid,
                            pot := r0.pot, ovr := r0.ovr, skills := r0.skills }
            contract := some
              { amount := (getRookieSalaries gs.numTeams gs.minContract gs.maxContract).get?
                  (pick.pick - 1 + gs.numTeams * (pick.round - 1)),
                exp := (gs.season : Int) + (4 - (pick.round : Int)) } }) ∧
    (gs.phase = PHASE_FANTASY_DRAFT →
      (selectPlayer gs pick p).map Player.draft = some p.draft ∧
      (selectPlayer gs pick p).map Player.contract = some p.contract ∧
      (selectPlayer gs pick p).map Player.tid = some (pick.tid : Int)) := by
  constructor
  · intro r0 rs hr hp1 hp2 hround hph
    have hcast : ((pick.pick : Int) - 1 + (gs.numTeams : Int) * ((pick.round : Int) - 1))
        = ((pick.pick - 1 + gs.numTeams * (pick.round - 1) : ℕ) : ℤ) := by
      rcases hround with h | h <;> rw [h] <;> push_cast <;> omega
    have hlt : pick.pick - 1 + gs.numTeams * (pick.round - 1)
        < (getRookieSalaries gs.numTeams gs.minContract gs.maxContract).length := by
      rw [getRookieSalaries_length]
      rcases hround with h | h <;> rw [h] <;> omega
    refine ⟨hlt, ?_, ?_⟩
    · rw [List.get?_eq_get hlt]
      rfl
    · simp only [selectPlayer, if_pos hph, hr]
      rw [hcast]
      rw [if_pos (Int.natCast_nonneg _)]
      have hc : gs.phase = PHASE_FANTASY_DRAFT ∧ gs.nextPhase.getD 0 ≤ PHASE_PLAYOFFS → False :=
        fun hcc => hph hcc.1
      simp only [Int.toNat_natCast, if_neg hc, Option.bind_eq_bind, Option.some_bind]
  · intro hph
    have hph' : ¬ (gs.phase ≠ PHASE_FANTASY_DRAFT) := by simp [hph]
    simp only [selectPlayer, if_neg hph', Option.bind_eq_bind, Option.some_bind]
    split <;> simp [Option.map_some]

/-- Witness for C7: a one-team league at default contract bounds; a draft
pick in phase 5 gets a 3-year contract at table slot 0, and the same pick in
the fantasy-draft phase leaves the contract untouched. -/
theorem selectPlayer_contract_spec_witness :
    (selectPlayer ⟨5, none, 2017, 1, 500, 20000⟩ ⟨1, 1, 0, 0⟩
        ⟨1, -2, 1, [⟨60, 50, []⟩], none, none, 0⟩ = some
      { pid := 1, tid := (0 : Int), value := 1, ratings := [⟨60, 50, []⟩],
        draft := some { round := 1, pick := 1, tid := 0, year := 2017, originalTid := 0,
                        pot := 60, ovr := 50, skills := [] },
        contract := some { amount := (getRookieSalaries 1 500 20000).get? 0,
                           exp := (2017 : Int) + 3 },
        statsRows := 0 }) ∧
    ((selectPlayer ⟨PHASE_FANTASY_DRAFT, some 1, 2017, 1, 500, 20000⟩ ⟨1, 1, 0, 0⟩
        ⟨1, -2, 1, [⟨60, 50, []⟩], none, none, 0⟩).map Player.contract = some none) := by
  constructor
  · exact ((selectPlayer_contract_spec ⟨5, none, 2017, 1, 500, 20000⟩ ⟨1, 1, 0, 0⟩
      ⟨1, -2, 1, [⟨60, 50, []⟩], none, none, 0⟩).1 ⟨60, 50, []⟩ [] rfl (by decide) (by decide)
      (Or.inl rfl) (by decide)).2.2
  · exact ((selectPlayer_contract_spec ⟨PHASE_FANTASY_DRAFT, some 1, 2017, 1, 500, 20000⟩
      ⟨1, 1, 0, 0⟩ ⟨1, -2, 1, [⟨60, 50, []⟩], none, none, 0⟩).2 rfl).2.1

theorem IsIntQ_add {a b : ℚ} (ha : IsIntQ a) (hb : IsIntQ b) : IsIntQ (a + b) := by
  obtain ⟨x, hx⟩ := ha
  obtain ⟨y, hy⟩ := hb
  exact ⟨x + y, by rw [hx, hy]; push_cast; ring⟩

theorem IsIntQ_sum : ∀ (l : List ℚ), (∀ c ∈ l, IsIntQ c) → IsIntQ l.sum := by
  intro l
  induction l with
  | nil => intro _; exact ⟨0, by norm_num⟩
  | cons a l ih =>
    intro h
    rw [List.sum_cons]
    exact IsIntQ_add (h a (by simp)) (ih (fun c hc => h c (by simp [hc])))

theorem ratMod_intCast (z : ℤ) (v : Nat) (hv : 0 < v) :
    ratMod (z : ℚ) (v : ℚ) = ((z % (v : ℤ) : ℤ) : ℚ) := by
  unfold ratMod
  rw [Rat.floor_intCast_div_natCast]
  rw [Int.emod_def]
  push_cast
  ring

theorem newVal_intCast (z : ℤ) (v : Nat) (hv : 0 < v) :
    ((z : ℚ) - ((z % (v : ℤ) : ℤ) : ℚ)) / (v : ℚ) = ((z / (v : ℤ) : ℤ) : ℚ) := by
  have hsub : (z : ℚ) - ((z % (v : ℤ) : ℤ) : ℚ) = ((v : ℤ) * (z / (v : ℤ)) : ℤ) := by
    rw [Int.emod_def]
    push_cast
    ring
  rw [hsub]
  push_cast
  have hne : ((v : ℕ) : ℚ) ≠ 0 := Nat.cast_ne_zero.mpr hv.ne'
  exact mul_div_cancel_left₀ _ hne

theorem sum_indicator_range (n m : ℕ) (c : ℚ) :
    ((List.range n).map (fun (j : ℕ) => c + (if (j : ℚ) < (m : ℚ) then (1 : ℚ) else 0))).sum
      = (n : ℚ) * c + ((min m n : ℕ) : ℚ) := by
  induction n with
  | zero => simp
  | succ n ih =>
    rw [List.range_succ, List.map_append, List.sum_append]
    simp only [List.map_cons, List.map_nil, List.sum_cons, List.sum_nil]
    rw [ih]
    by_cases h : n < m
    · rw [if_pos (by exact_mod_cast h)]
      have hmin : min m (n + 1) = min m n + 1 := by omega
      rw [hmin]
      push_cast
      ring
    · rw [if_neg (by exact_mod_cast h)]
      have hmin : min m (n + 1) = min m n := by omega
      rw [hmin]
      push_cast
      ring

theorem applyAvg_split (chances : List ℚ) (tc val : Nat) :
    chances = chances.take tc ++ ((chances.drop tc).take val) ++ chances.drop (tc + val) := by
  rw [List.append_assoc]
  have h2 : chances.drop (tc + val) = (chances.drop tc).drop val := by
    rw [List.drop_drop]
  rw [h2, List.take_append_drop, List.take_append_drop]

theorem applyAvg_final_spec (chances : List ℚ) (tc val : Nat)
    (hint : ∀ c ∈ chances, IsIntQ c) (hle : tc + val ≤ chances.length) :
    (applyAvg chances tc val true).sum = chances.sum ∧
    (∀ c ∈ applyAvg chances tc val true, IsIntQ c) ∧
    (applyAvg chances tc val true).length = chances.length := by
  have hseglen : ((chances.drop tc).take val).length = val := by
    simp only [List.length_take, List.length_drop]
    omega
  obtain ⟨z, hz⟩ := IsIntQ_sum ((chances.drop tc).take val)
    (fun c hc => hint c (List.mem_of_mem_drop (List.mem_of_mem_take hc)))
  rcases Nat.eq_zero_or_pos val with hval0 | hvalpos
  · subst hval0
    have hres : applyAvg chances tc 0 true = chances := by
      simp only [applyAvg, hseglen, List.range_zero, List.map_nil, List.nil_append,
        List.append_nil, Nat.add_zero]
      rw [List.take_append_drop]
    rw [hres]
    exact ⟨rfl, hint, rfl⟩
  · have hm0 : 0 ≤ z % (val : ℤ) := Int.emod_nonneg z (by exact_mod_cast hvalpos.ne')
    have hmlt : z % (val : ℤ) < (val : ℤ) := Int.emod_lt_of_pos z (by exact_mod_cast hvalpos)
    have hmcast : ((z % (val : ℤ) : ℤ) : ℚ) = (((z % (val : ℤ)).toNat : ℕ) : ℚ) := by
      have h1 : ((z % (val : ℤ)).toNat : ℤ) = z % (val : ℤ) := Int.toNat_of_nonneg hm0
      calc ((z % (val : ℤ) : ℤ) : ℚ) = (((z % (val : ℤ)).toNat : ℤ) : ℚ) := by rw [h1]
        _ = (((z % (val : ℤ)).toNat : ℕ) : ℚ) := by push_cast; rfl
    have hform : applyAvg chances tc val true
        = chances.take tc
          ++ (List.range val).map (fun (j : ℕ) => ((z / (val : ℤ) : ℤ) : ℚ)
              + (if (j : ℚ) < (((z % (val : ℤ)).toNat : ℕ) : ℚ) then 1 else 0))
          ++ chances.drop (tc + val) := by
      simp only [applyAvg, hseglen, hz, if_true]
      simp only [ratMod_intCast z val hvalpos, newVal_intCast z val hvalpos]
      simp only [hmcast]
    have hmid : ((List.range val).map (fun (j : ℕ) => ((z / (val : ℤ) : ℤ) : ℚ)
        + (if (j : ℚ) < (((z % (val : ℤ)).toNat : ℕ) : ℚ) then 1 else 0))).sum
        = ((chances.drop tc).take val).sum := by
      rw [sum_indicator_range]
      have hminval : min (z % (val : ℤ)).toNat val = (z % (val : ℤ)).toNat := by omega
      rw [hminval, hz]
      have hdm := Int.ediv_add_emod z (val : ℤ)
      have hdm' : ((val : ℤ) * (z / (val : ℤ)) + z % (val : ℤ) : ℤ) = z := hdm
      calc (val : ℚ) * ((z / (val : ℤ) : ℤ) : ℚ) + (((z % (val : ℤ)).toNat : ℕ) : ℚ)
          = (((val : ℤ) * (z / (val : ℤ)) + z % (val : ℤ) : ℤ) : ℚ) := by
            rw [← hmcast]; push_cast; ring
        _ = (z : ℚ) := by rw [hdm']
    constructor
    · rw [hform]
      conv_rhs => rw [applyAvg_split chances tc val]
      simp only [List.sum_append]
      rw [hmid]
    constructor
    · rw [hform]
      intro c hc
      rcases List.mem_append.1 hc with hc1 | hc2
      · rcases List.mem_append.1 hc1 with hc3 | hc4
        · exact hint c (List.mem_of_mem_take hc3)
        · obtain ⟨j, _, rfl⟩ := List.mem_map.1 hc4
          refine IsIntQ_add ⟨z / (val : ℤ), rfl⟩ ?_
          split
          · exact ⟨1, by norm_num⟩
          · exact ⟨0, by norm_num⟩
      · exact hint c (List.mem_of_mem_drop hc2)
    · rw [hform]
      simp only [List.length_append, List.length_take, List.length_map,
        List.length_range, List.length_drop]
      omega

theorem updateChancesGo_final_spec : ∀ (groups : List (ℚ × Nat)) (chances : List ℚ) (tc : Nat),
    (∀ c ∈ chances, IsIntQ c) → tc ≤ chances.length →
    (updateChancesGo true chances tc groups).sum = chances.sum ∧
    (∀ c ∈ updateChancesGo true chances tc groups, IsIntQ c) ∧
    (updateChancesGo true chances tc groups).length = chances.length := by
  intro groups
  induction groups with
  | nil => intro chances tc hint _; exact ⟨rfl, hint, rfl⟩
  | cons pr rest ih =>
    intro chances tc hint htc
    obtain ⟨w, cnt⟩ := pr
    simp only [updateChancesGo]
    by_cases hc : 1 < cnt ∧ chances.length ≤ tc + cnt
    · rw [if_pos hc, if_pos hc.1]
      have hA := applyAvg_final_spec chances tc (chances.length - tc) hint (by omega)
      rw [if_pos (by omega)]
      exact hA
    · rw [if_neg hc]
      by_cases h1 : 1 < cnt
      · have hlt : tc + cnt < chances.length := by
          rcases Nat.lt_or_ge (tc + cnt) chances.length with h | h
          · exact h
          · exact absurd ⟨h1, h⟩ hc
        rw [if_pos h1]
        have hA := applyAvg_final_spec chances tc cnt hint (by omega)
        rw [if_neg (by omega)]
        have hrec := ih (applyAvg chances tc cnt true) (tc + cnt) hA.2.1
          (by rw [hA.2.2]; omega)
        exact ⟨by rw [hrec.1, hA.1], hrec.2.1, by rw [hrec.2.2, hA.2.2]⟩
      · rw [if_neg h1]
        by_cases hbr : chances.length ≤ tc + cnt
        · rw [if_pos hbr]
          exact ⟨rfl, hint, rfl⟩
        · rw [if_neg hbr]
          exact ih chances (tc + cnt) hint (by omega)

theorem updateChances_final_spec (chances : List ℚ) (teams : List Team)
    (hint : ∀ c ∈ chances, IsIntQ c) :
    (updateChances chances teams true).sum = chances.sum ∧
    (updateChances chances teams true).length = chances.length :=
  ⟨(updateChancesGo_final_spec (winpGroups teams) chances 0 hint (by omega)).1,
   (updateChancesGo_final_spec (winpGroups teams) chances 0 hint (by omega)).2.2⟩

theorem updateChancesGo_all_single (b : Bool) : ∀ (groups : List (ℚ × Nat)),
    (∀ p ∈ groups, p.2 ≤ 1) → ∀ (chances : List ℚ) (tc : Nat),
    updateChancesGo b chances tc groups = chances := by
  intro groups
  induction groups with
  | nil => intro _ chances tc; rfl
  | cons pr rest ih =>
    intro hall chances tc
    obtain ⟨w, cnt⟩ := pr
    have hcnt : cnt ≤ 1 := hall (w, cnt) (by simp)
    have hnot : (1 < cnt) = False := eq_false (by omega)
    simp only [updateChancesGo, hnot, false_and, if_false]
    split
    · rfl
    · exact ih (fun p hp => hall p (by simp [hp])) chances (tc + cnt)

theorem winpGroups_single_of_nodup (teams : List Team)
    (hnd : (teams.map Team.winp).Nodup) : ∀ p ∈ winpGroups teams, p.2 ≤ 1 := by
  intro p hp
  unfold winpGroups at hp
  rcases List.mem_map.1 hp with ⟨w, hw, rfl⟩
  have hw2 : w ∈ (teams.map Team.winp).dedup := ((List.perm_insertionSort _ _).mem_iff).1 hw
  have hw3 : w ∈ teams.map Team.winp := List.mem_dedup.1 hw2
  exact le_of_eq (List.count_eq_one_of_mem hnd hw3)

theorem dedup_replicate_q (w : ℚ) : ∀ (k : ℕ), 1 ≤ k → (List.replicate k w).dedup = [w] := by
  intro k
  induction k with
  | zero => intro h; exact absurd h (by decide)
  | succ k ih =>
    intro _
    rcases Nat.eq_zero_or_pos k with hk | hk
    · subst hk
      simp
    · rw [List.replicate_succ,
        List.dedup_cons_of_mem (List.mem_replicate.2 ⟨by omega, rfl⟩)]
      exact ih hk

theorem winpGroups_all_tied (teams : List Team) (w : ℚ) (hlen : 1 ≤ teams.length)
    (hall : ∀ t ∈ teams, t.winp = w) :
    winpGroups teams = [(w, teams.length)] := by
  have hmap : teams.map Team.winp = List.replicate teams.length w := by
    have h1 : ∀ b ∈ teams.map Team.winp, b = w := by
      intro b hb
      rcases List.mem_map.1 hb with ⟨t, ht, rfl⟩
      exact hall t ht
    have h2 := List.eq_replicate_of_mem h1
    rwa [List.length_map] at h2
  unfold winpGroups
  rw [hmap, dedup_replicate_q w teams.length hlen]
  have hsort : List.insertionSort winpLe [w] = [w] := rfl
  rw [hsort]
  simp [List.count_replicate_self]

theorem updateChancesGo_tied (b : Bool) (w : ℚ) (k : Nat) (hk : 2 ≤ k)
    (chances : List ℚ) :
    updateChancesGo b chances 0 [(w, k)]
      = applyAvg chances 0 (min chances.length k) b := by
  have h1 : (1 < k) = True := eq_true (by omega)
  by_cases hc : chances.length ≤ 0 + k
  · have hcT : (chances.length ≤ 0 + k) = True := eq_true hc
    simp only [updateChancesGo, h1, hcT, true_and, if_true]
    rw [if_pos (by omega)]
    have hmin : chances.length - 0 = min chances.length k := by omega
    rw [hmin]
  · have hcF : (chances.length ≤ 0 + k) = False := eq_false hc
    simp only [updateChancesGo, h1, hcF, true_and, if_true, if_false]
    have hmin : min chances.length k = k := by omega
    rw [hmin]

theorem ratMod_natCast (T v : ℕ) (hv : 0 < v) :
    ratMod ((T : ℕ) : ℚ) ((v : ℕ) : ℚ) = ((T % v : ℕ) : ℚ) := by
  have h2 : ((T : ℕ) : ℚ) = (((T : ℤ) : ℤ) : ℚ) := by push_cast; rfl
  calc ratMod ((T : ℕ) : ℚ) ((v : ℕ) : ℚ)
      = ratMod (((T : ℤ) : ℤ) : ℚ) ((v : ℕ) : ℚ) := by rw [← h2]
    _ = (((T : ℤ) % (v : ℤ) : ℤ) : ℚ) := ratMod_intCast _ v hv
    _ = ((T % v : ℕ) : ℚ) := by
        rw [← Int.natCast_mod]
        push_cast
        rfl

theorem newVal_natCast (T v : ℕ) (hv : 0 < v) :
    (((T : ℕ) : ℚ) - ((T % v : ℕ) : ℚ)) / ((v : ℕ) : ℚ) = ((T / v : ℕ) : ℚ) := by
  have h := newVal_intCast (T : ℤ) v hv
  have e1 : (((T : ℤ) : ℤ) : ℚ) = ((T : ℕ) : ℚ) := by push_cast; rfl
  have e2 : (((T : ℤ) % (v : ℤ) : ℤ) : ℚ) = ((T % v : ℕ) : ℚ) := by
    rw [← Int.natCast_mod]; push_cast; rfl
  have e3 : (((T : ℤ) / (v : ℤ) : ℤ) : ℚ) = ((T / v : ℕ) : ℚ) := by
    rw [← Int.natCast_div]; push_cast; rfl
  rw [e1, e2, e3] at h
  exact h

theorem applyAvg_natCast_final (ns : List ℕ) (val : Nat) (hval : val ≤ ns.length) :
    applyAvg (ns.map (fun (n : ℕ) => (n : ℚ))) 0 val true
      = (List.range val).map
          (fun (j : ℕ) =>
            (((ns.take val).sum / val + if j < (ns.take val).sum % val then 1 else 0 : ℕ) : ℚ))
        ++ (ns.drop val).map (fun (n : ℕ) => (n : ℚ)) := by
  rcases Nat.eq_zero_or_pos val with h0 | hpos
  · subst h0
    simp [applyAvg]
  · have hseg : ((ns.map (fun (n : ℕ) => (n : ℚ))).drop 0).take val
        = (ns.take val).map (fun (n : ℕ) => (n : ℚ)) := by
      rw [List.drop_zero, List.map_take]
    have hsum : ((ns.take val).map (fun (n : ℕ) => (n : ℚ))).sum = (((ns.take val).sum : ℕ) : ℚ) :=
      (Nat.cast_list_sum _).symm
    have hlen2 : ((ns.take val).map (fun (n : ℕ) => (n : ℚ))).length = val := by
      simp only [List.length_map, List.length_take]
      omega
    simp only [applyAvg, hseg, hsum, hlen2, if_true, List.take_zero, List.nil_append,
      Nat.zero_add]
    simp only [ratMod_natCast (ns.take val).sum val hpos,
      newVal_natCast (ns.take val).sum val hpos]
    congr 1
    · apply List.map_congr_left
      intro j _
      by_cases hj : j < (ns.take val).sum % val
      · rw [if_pos (by exact_mod_cast hj), if_pos hj]
        push_cast
        ring
      · rw [if_neg (by exact_mod_cast hj), if_neg hj]
        push_cast
        ring
    · rw [List.map_drop]

theorem applyAvg_natCast_nonfinal (ns : List ℕ) (val : Nat) (hval : val ≤ ns.length) :
    applyAvg (ns.map (fun (n : ℕ) => (n : ℚ))) 0 val false
      = (List.range val).map
          (fun (_ : ℕ) => (((ns.take val).sum : ℕ) : ℚ) / ((val : ℕ) : ℚ))
        ++ (ns.drop val).map (fun (n : ℕ) => (n : ℚ)) := by
  rcases Nat.eq_zero_or_pos val with h0 | hpos
  · subst h0
    simp [applyAvg]
  · have hseg : ((ns.map (fun (n : ℕ) => (n : ℚ))).drop 0).take val
        = (ns.take val).map (fun (n : ℕ) => (n : ℚ)) := by
      rw [List.drop_zero, List.map_take]
    have hsum : ((ns.take val).map (fun (n : ℕ) => (n : ℚ))).sum = (((ns.take val).sum : ℕ) : ℚ) :=
      (Nat.cast_list_sum _).symm
    have hlen2 : ((ns.take val).map (fun (n : ℕ) => (n : ℚ))).length = val := by
      simp only [List.length_map, List.length_take]
      omega
    simp only [applyAvg, hseg, hsum, hlen2, List.take_zero, List.nil_append, Nat.zero_add]
    congr 1
    · apply List.map_congr_left
      intro j _
      simp only [Bool.false_eq_true, if_false]
      rw [if_neg (not_lt.2 (Nat.cast_nonneg j))]
      simp
    · rw [List.map_drop]

/-- C2 (amended): updateChances on an integer weight table: (a) if all teams'
win percentages are pairwise distinct it leaves the table unmodified; (b) if
all teams share one win percentage (a fully tied group of size
k = teams.length ≥ 2, truncated at the array boundary to
val = min length k), then with isFinal = true every resulting weight in the
group is the group total divided by val with the integer remainder
distributed one unit each to the first remainder members, so the weights
still sum to the original total; with isFinal = false the remainder variable
stays 0 and every tied slot receives the exact — possibly fractional —
quotient total / val (the remainder is not floored away). -/
theorem updateChances_tie_averaging (ns : List ℕ) (teams : List Team) :
    ((teams.map Team.winp).Nodup → ∀ b : Bool,
      updateChances (ns.map (fun (n : ℕ) => (n : ℚ))) teams b
        = ns.map (fun (n : ℕ) => (n : ℚ))) ∧
    (∀ w : ℚ, 2 ≤ teams.length → (∀ t ∈ teams, t.winp = w) →
      (updateChances (ns.map (fun (n : ℕ) => (n : ℚ))) teams true
        = (List.range (min ns.length teams.length)).map
            (fun (j : ℕ) =>
              (((ns.take (min ns.length teams.length)).sum / min ns.length teams.length
                + if j < (ns.take (min ns.length teams.length)).sum % min ns.length teams.length
                  then 1 else 0 : ℕ) : ℚ))
          ++ (ns.drop (min ns.length teams.length)).map (fun (n : ℕ) => (n : ℚ))) ∧
      (updateChances (ns.map (fun (n : ℕ) => (n : ℚ))) teams true).sum = ((ns.sum : ℕ) : ℚ) ∧
      (updateChances (ns.map (fun (n : ℕ) => (n : ℚ))) teams false
        = (List.range (min ns.length teams.length)).map
            (fun (_ : ℕ) => (((ns.take (min ns.length teams.length)).sum : ℕ) : ℚ)
              / ((min ns.length teams.length : ℕ) : ℚ))
          ++ (ns.drop (min ns.length teams.length)).map (fun (n : ℕ) => (n : ℚ)))) := by
  constructor
  · intro hnd b
    exact updateChancesGo_all_single b _ (winpGroups_single_of_nodup teams hnd) _ 0
  · intro w hk hall
    have hlen1 : 1 ≤ teams.length := by omega
    have hgroups := winpGroups_all_tied teams w hlen1 hall
    have hmin : min (ns.map (fun (n : ℕ) => (n : ℚ))).length teams.length
        = min ns.length teams.length := by
      rw [List.length_map]
    have hminle : min ns.length teams.length ≤ ns.length := by omega
    refine ⟨?_, ?_, ?_⟩
    · rw [updateChances, hgroups, updateChancesGo_tied true w teams.length hk, hmin]
      exact applyAvg_natCast_final ns _ hminle
    · have hint : ∀ c ∈ ns.map (fun (n : ℕ) => (n : ℚ)), IsIntQ c := by
        intro c hc
        rcases List.mem_map.1 hc with ⟨n, _, rfl⟩
        exact ⟨n, by push_cast; rfl⟩
      rw [(updateChances_final_spec _ teams hint).1]
      exact (Nat.cast_list_sum ns).symm
    · rw [updateChances, hgroups, updateChancesGo_tied false w teams.length hk, hmin]
      exact applyAvg_natCast_nonfinal ns _ hminle

/-- C2 counterexample: two tied teams over the table [3, 2] with isFinal =
false: the code sets the remainder to 0 and assigns the exact fractional
quotient 5/2 to both tied slots, not the remainder-dropped value 2. -/
theorem updateChances_drop_remainder_refuted :
    updateChances [3, 2] [⟨0, 1, -1, 0⟩, ⟨1, 1, -1, 1⟩] false = [5 / 2, 5 / 2] ∧
    updateChances [3, 2] [⟨0, 1, -1, 0⟩, ⟨1, 1, -1, 1⟩] false ≠ [2, 2] := by
  have h : updateChances [3, 2] [⟨0, 1, -1, 0⟩, ⟨1, 1, -1, 1⟩] false = [5 / 2, 5 / 2] := by
    norm_num [updateChances, winpGroups, updateChancesGo, applyAvg, ratMod, winpLe,
      List.dedup, List.pwFilter, List.insertionSort, List.orderedInsert,
      List.count_cons, List.count_nil, List.range_succ]
  refine ⟨h, ?_⟩
  rw [h]
  intro hbad
  have h2 : (5 / 2 : ℚ) = 2 := (List.cons.injEq _ _ _ _ ▸ hbad).1
  norm_num at h2

/-- Witness for C2: the table [3, 2]; first with two distinct win
percentages (table unchanged), then with two tied teams (total preserved). -/
theorem updateChances_tie_averaging_witness :
    (updateChances (([3, 2] : List ℕ).map (fun (n : ℕ) => (n : ℚ)))
        [⟨0, 0, -1, 0⟩, ⟨1, 1, -1, 1⟩] true
      = ([3, 2] : List ℕ).map (fun (n : ℕ) => (n : ℚ))) ∧
    (updateChances (([3, 2] : List ℕ).map (fun (n : ℕ) => (n : ℚ)))
        [⟨0, 1, -1, 0⟩, ⟨1, 1, -1, 1⟩] true).sum = ((([3, 2] : List ℕ).sum : ℕ) : ℚ) :=
  ⟨(updateChances_tie_averaging [3, 2] [⟨0, 0, -1, 0⟩, ⟨1, 1, -1, 1⟩]).1 (by decide) true,
   ((updateChances_tie_averaging [3, 2] [⟨0, 1, -1, 0⟩, ⟨1, 1, -1, 1⟩]).2 1
     (by decide) (by decide)).2.1⟩

theorem schedGo_day_le : ∀ (l : List (Int × Int)) (day : Nat) (ts : List Int) (prev : Bool),
    ∀ e ∈ schedGo day ts prev l, day ≤ e.day := by
  intro l
  induction l with
  | nil => intro day ts prev e he; simp [schedGo] at he
  | cons p rest ih =>
    intro day ts prev e he
    obtain ⟨h, a⟩ := p
    simp only [schedGo] at he
    split at he
    · rcases List.mem_cons.1 he with rfl | hmem
      · show day ≤ day + 1
        omega
      · have := ih (day + 1) [h, a] (a == -2 && h == -1) e hmem
        omega
    · rcases List.mem_cons.1 he with rfl | hmem
      · exact le_refl _
      · exact ih day (ts ++ [h, a]) (a == -2 && h == -1) e hmem

theorem schedGo_prev_day_le (l : List (Int × Int)) (day : Nat) (ts : List Int) :
    ∀ e ∈ schedGo day ts true l, day + 1 ≤ e.day := by
  intro e he
  cases l with
  | nil => simp [schedGo] at he
  | cons p rest =>
    obtain ⟨h, a⟩ := p
    simp only [schedGo] at he
    rw [if_pos (by simp)] at he
    rcases List.mem_cons.1 he with rfl | hmem
    · exact le_refl _
    · have := schedGo_day_le rest (day + 1) [h, a] (a == -2 && h == -1) e hmem
      omega

theorem schedGo_asg_day_le : ∀ (l : List (Int × Int)) (day : Nat) (ts : List Int) (prev : Bool),
    ∀ e ∈ schedGo day ts prev l, isASG e → day + 1 ≤ e.day := by
  intro l
  induction l with
  | nil => intro day ts prev e he; simp [schedGo] at he
  | cons p rest ih =>
    intro day ts prev e he hasg
    obtain ⟨h, a⟩ := p
    simp only [schedGo] at he
    split at he
    · rcases List.mem_cons.1 he with rfl | hmem
      · exact le_refl _
      · have := ih (day + 1) [h, a] (a == -2 && h == -1) e hmem hasg
        omega
    · rcases List.mem_cons.1 he with rfl | hmem
      · rename_i hcond
        exact absurd (by simp; exact Or.inl (Or.inr ⟨hasg.2, hasg.1⟩)) hcond
      · exact ih day (ts ++ [h, a]) (a == -2 && h == -1) e hmem hasg

theorem schedGo_pairwise : ∀ (l : List (Int × Int)) (day : Nat) (ts : List Int) (prev : Bool),
    List.Pairwise (fun e1 e2 : SchedEntry => e1.day ≤ e2.day) (schedGo day ts prev l) := by
  intro l
  induction l with
  | nil => intro day ts prev; simp [schedGo]
  | cons p rest ih =>
    intro day ts prev
    obtain ⟨h, a⟩ := p
    simp only [schedGo]
    split
    · refine List.pairwise_cons.2 ⟨?_, ih (day + 1) [h, a] (a == -2 && h == -1)⟩
      intro e he
      have := schedGo_day_le rest (day + 1) [h, a] (a == -2 && h == -1) e he
      show day + 1 ≤ e.day
      omega
    · refine List.pairwise_cons.2 ⟨?_, ih day (ts ++ [h, a]) (a == -2 && h == -1)⟩
      intro e he
      exact schedGo_day_le rest day (ts ++ [h, a]) (a == -2 && h == -1) e he

theorem dayIds_cons (e : SchedEntry) (es : List SchedEntry) (d : Nat) :
    dayIds (e :: es) d
      = (if e.day = d then [e.homeTid, e.awayTid] else []) ++ dayIds es d := by
  by_cases hd : e.day = d
  · simp [dayIds, List.filter_cons, hd]
  · simp [dayIds, List.filter_cons, hd]

theorem dayIds_nil_of_lt (l : List (Int × Int)) (day : Nat) (ts : List Int) (prev : Bool)
    (d : Nat) (hd : d < day) : dayIds (schedGo day ts prev l) d = [] := by
  have hall : ∀ e ∈ schedGo day ts prev l, ¬ ((e.day == d) = true) := by
    intro e he
    have := schedGo_day_le l day ts prev e he
    simp only [beq_iff_eq]
    omega
  simp only [dayIds]
  rw [List.filter_eq_nil_iff.2 hall]
  rfl

theorem schedGo_dayIds_nodup : ∀ (l : List (Int × Int)), (∀ p ∈ l, p.1 ≠ p.2) →
    ∀ (day : Nat) (ts : List Int) (prev : Bool), ts.Nodup →
    ∀ d, ((if d = day then ts else []) ++ dayIds (schedGo day ts prev l) d).Nodup := by
  intro l
  induction l with
  | nil =>
    intro _ day ts _ hts d
    simp only [schedGo, dayIds, List.filter_nil, List.flatMap_nil, List.append_nil]
    split
    · exact hts
    · exact List.nodup_nil
  | cons p rest ih =>
    intro hne day ts prev hts d
    obtain ⟨h, a⟩ := p
    have hha : h ≠ a := hne (h, a) (by simp)
    have hnerest : ∀ p ∈ rest, p.1 ≠ p.2 := fun p hp => hne p (by simp [hp])
    simp only [schedGo]
    by_cases hbranch : (ts.contains h || ts.contains a || (a == -2 && h == -1) || prev) = true
    · rw [if_pos hbranch, dayIds_cons]
      have hrec := ih hnerest (day + 1) [h, a] (a == -2 && h == -1) (by simp [hha]) d
      by_cases hd1 : d = day + 1
      · rw [if_neg (show ¬ d = day by omega)]
        rw [if_pos (show ({ day := day + 1, homeTid := h, awayTid := a } : SchedEntry).day = d
          from by rw [hd1])]
        rw [if_pos hd1] at hrec
        simpa using hrec
      · rw [if_neg (show ¬ ({ day := day + 1, homeTid := h, awayTid := a } : SchedEntry).day = d
          from by show ¬ day + 1 = d; omega)]
        rw [if_neg hd1] at hrec
        by_cases hd0 : d = day
        · rw [if_pos hd0]
          rw [dayIds_nil_of_lt rest (day + 1) [h, a] (a == -2 && h == -1) d (by omega)]
          simpa using hts
        · rw [if_neg hd0]
          simpa using hrec
    · rw [if_neg hbranch, dayIds_cons]
      have hni : h ∉ ts := fun hmem => hbranch (by simp [hmem])
      have hna : a ∉ ts := fun hmem => hbranch (by simp [hmem])
      have hts2 : (ts ++ [h, a]).Nodup := by
        rw [List.nodup_append]
        refine ⟨hts, by simp [hha], ?_⟩
        intro x hx hx2
        simp only [List.mem_cons, List.mem_singleton, List.not_mem_nil, or_false] at hx2
        rcases hx2 with rfl | rfl
        · exact hni hx
        · exact hna hx
      have hrec := ih hnerest day (ts ++ [h, a]) (a == -2 && h == -1) hts2 d
      by_cases hd0 : d = day
      · rw [if_pos (show ({ day := day, homeTid := h, awayTid := a } : SchedEntry).day = d
          from by rw [hd0])]
        rw [if_pos hd0]
        rw [if_pos hd0] at hrec
        simpa [List.append_assoc] using hrec
      · rw [if_neg (show ¬ ({ day := day, homeTid := h, awayTid := a } : SchedEntry).day = d
          from by show ¬ day = d; omega)]
        rw [if_neg hd0]
        rw [if_neg hd0] at hrec
        simpa using hrec

theorem schedGo_asg_alone : ∀ (l : List (Int × Int)) (day : Nat) (ts : List Int) (prev : Bool),
    ∀ e ∈ schedGo day ts prev l, isASG e →
    (schedGo day ts prev l).filter (fun x => x.day == e.day) = [e] := by
  intro l
  induction l with
  | nil => intro day ts prev e he; simp [schedGo] at he
  | cons p rest ih =>
    intro day ts prev e he hasg
    obtain ⟨h, a⟩ := p
    simp only [schedGo] at he ⊢
    by_cases hbranch : (ts.contains h || ts.contains a || (a == -2 && h == -1) || prev) = true
    · rw [if_pos hbranch] at he ⊢
      rcases List.mem_cons.1 he with rfl | hmem
      · rw [List.filter_cons, if_pos (by simp)]
        have hflag : (a == -2 && h == -1) = true := by
          have h1 : h = -1 := hasg.1
          have h2 : a = -2 := hasg.2
          simp [h1, h2]
        rw [hflag]
        have hgt : ∀ x ∈ schedGo (day + 1) [h, a] true rest,
            ¬ ((x.day == ({ day := day + 1, homeTid := h, awayTid := a } : SchedEntry).day) = true) := by
          intro x hx
          have := schedGo_prev_day_le rest (day + 1) [h, a] x hx
          simp only [beq_iff_eq]
          show ¬ x.day = day + 1
          omega
        rw [List.filter_eq_nil_iff.2 hgt]
      · have hday := schedGo_asg_day_le rest (day + 1) [h, a] (a == -2 && h == -1) e hmem hasg
        rw [List.filter_cons, if_neg (by simp only [beq_iff_eq]; show ¬ day + 1 = e.day; omega)]
        exact ih (day + 1) [h, a] (a == -2 && h == -1) e hmem hasg
    · rw [if_neg hbranch] at he ⊢
      rcases List.mem_cons.1 he with rfl | hmem
      · exact absurd (by simp; exact Or.inl (Or.inr ⟨hasg.2, hasg.1⟩)) hbranch
      · have hday := schedGo_asg_day_le rest day (ts ++ [h, a]) (a == -2 && h == -1) e hmem hasg
        rw [List.filter_cons, if_neg (by simp only [beq_iff_eq]; show ¬ day = e.day; omega)]
        exact ih day (ts ++ [h, a]) (a == -2 && h == -1) e hmem hasg

theorem schedGo_after_asg : ∀ (l : List (Int × Int)) (day : Nat) (ts : List Int) (prev : Bool)
    (i : Nat) (e e' : SchedEntry),
    (schedGo day ts prev l).get? i = some e → isASG e →
    (schedGo day ts prev l).get? (i + 1) = some e' → e'.day = e.day + 1 := by
  intro l
  induction l with
  | nil => intro day ts prev i e e' he _ _; simp [schedGo] at he
  | cons p rest ih =>
    intro day ts prev i e e' he hasg he'
    obtain ⟨h, a⟩ := p
    simp only [schedGo] at he he'
    by_cases hbranch : (ts.contains h || ts.contains a || (a == -2 && h == -1) || prev) = true
    · rw [if_pos hbranch] at he he'
      cases i with
      | zero =>
        rw [List.get?_cons_zero] at he
        injection he with he
        subst he
        have hflag : (a == -2 && h == -1) = true := by
          have h1 : h = -1 := hasg.1
          have h2 : a = -2 := hasg.2
          simp [h1, h2]
        rw [List.get?_cons_succ, hflag] at he'
        cases rest with
        | nil => simp [schedGo] at he'
        | cons q rest2 =>
          obtain ⟨qh, qa⟩ := q
          simp only [schedGo] at he'
          rw [if_pos (by simp), List.get?_cons_zero] at he'
          injection he' with he'
          subst he'
          rfl
      | succ j =>
        rw [List.get?_cons_succ] at he he'
        exact ih (day + 1) [h, a] (a == -2 && h == -1) j e e' he hasg he'
    · rw [if_neg hbranch] at he he'
      cases i with
      | zero =>
        rw [List.get?_cons_zero] at he
        injection he with he
        subst he
        exact absurd (by simp; exact Or.inl (Or.inr ⟨hasg.2, hasg.1⟩)) hbranch
      | succ j =>
        rw [List.get?_cons_succ] at he he'
        exact ih day (ts ++ [h, a]) (a == -2 && h == -1) j e e' he hasg he'

/-- C4 counterexample: the claim fails as stated on two concrete inputs.  A
degenerate self-matchup (3, 3) puts team 3 twice on day 1, so the
no-duplicates-per-day part fails; and on [(-1, -2), (0, 1), (2, 3)] the
matchup (0, 1) that follows the all-star sentinel shares day 3 with (2, 3),
so the matchup after the all-star game does not occupy a day by itself. -/
theorem scheduleClaim_refuted :
    ¬ scheduleClaim [(3, 3)] ∧ ¬ scheduleClaim [(-1, -2), (0, 1), (2, 3)] := by
  constructor
  · unfold scheduleClaim
    decide
  · unfold scheduleClaim
    decide

/-- C4 (amended): for every input list of home/away pairs in which no matchup
pairs a team against itself, within any one day no team id appears twice
(ignoring the all-star sentinel ids -1 and -2); an all-star sentinel matchup
always occupies a day by itself; days are assigned in nondecreasing order;
and the matchup immediately following an all-star matchup starts a strictly
later, fresh day — though later matchups may join that day. -/
theorem setSchedule_day_invariants (tids : List (Int × Int))
    (hne : ∀ p ∈ tids, p.1 ≠ p.2) :
    (∀ d : Nat, (nonSentinelIds (dayIds (setScheduleDays tids) d)).Nodup) ∧
    (∀ e ∈ setScheduleDays tids, isASG e →
      (setScheduleDays tids).filter (fun x => x.day == e.day) = [e]) ∧
    List.Pairwise (fun e1 e2 : SchedEntry => e1.day ≤ e2.day) (setScheduleDays tids) ∧
    (∀ (i : Nat) (e e' : SchedEntry), (setScheduleDays tids).get? i = some e → isASG e →
      (setScheduleDays tids).get? (i + 1) = some e' → e'.day = e.day + 1) := by
  refine ⟨?_, ?_, ?_, ?_⟩
  · intro d
    have h1 := schedGo_dayIds_nodup tids hne 1 [] false List.nodup_nil d
    have h2 : (dayIds (setScheduleDays tids) d).Nodup := by
      rcases Decidable.em (d = 1) with hd | hd
      · rw [if_pos hd] at h1
        simpa using h1
      · rw [if_neg hd] at h1
        simpa using h1
    exact List.Nodup.filter _ h2
  · exact fun e he hasg => schedGo_asg_alone tids 1 [] false e he hasg
  · exact schedGo_pairwise tids 1 [] false
  · exact fun i e e' => schedGo_after_asg tids 1 [] false i e e'

/-- Witness for C4 (amended) on [(-1, -2), (0, 1), (2, 3)]: day 3 has no
duplicate ids, the all-star matchup sits alone on day 2, and the following
matchup opens day 3 = 2 + 1. -/
theorem setSchedule_day_invariants_witness :
    (nonSentinelIds (dayIds (setScheduleDays [(-1, -2), (0, 1), (2, 3)]) 3)).Nodup ∧
    (setScheduleDays [(-1, -2), (0, 1), (2, 3)]).filter
        (fun x => x.day == ({ day := 2, homeTid := -1, awayTid := -2 } : SchedEntry).day)
      = [{ day := 2, homeTid := -1, awayTid := -2 }] ∧
    ({ day := 3, homeTid := 0, awayTid := 1 } : SchedEntry).day
      = ({ day := 2, homeTid := -1, awayTid := -2 } : SchedEntry).day + 1 :=
  ⟨(setSchedule_day_invariants [(-1, -2), (0, 1), (2, 3)] (by decide)).1 3,
   (setSchedule_day_invariants [(-1, -2), (0, 1), (2, 3)] (by decide)).2.1
     { day := 2, homeTid := -1, awayTid := -2 } (by decide) (by decide),
   (setSchedule_day_invariants [(-1, -2), (0, 1), (2, 3)] (by decide)).2.2.2 0
     { day := 2, homeTid := -1, awayTid := -2 } { day := 3, homeTid := 0, awayTid := 1 }
     (by decide) (by decide) (by decide)⟩

theorem pickFirstThree_spec (cum : List ℚ) (numT : Nat) :
    ∀ (draws : List Nat) (acc : List Nat) (res : List Nat),
      acc.Nodup → (∀ i ∈ acc, i < numT ∧ i < cum.length) → acc.length ≤ 3 →
      pickFirstThree cum numT draws acc = some res →
      res.Nodup ∧ res.length = 3 ∧ (∀ i ∈ res, i < numT ∧ i < cum.length) := by
  intro draws
  induction draws with
  | nil =>
    intro acc res hnd hb hlen hres
    simp only [pickFirstThree] at hres
    split at hres
    · rename_i h3
      injection hres with hres
      subst hres
      exact ⟨hnd, by omega, hb⟩
    · exact absurd hres (by simp)
  | cons d ds ih =>
    intro acc res hnd hb hlen hres
    simp only [pickFirstThree] at hres
    split at hres
    · rename_i h3
      injection hres with hres
      subst hres
      exact ⟨hnd, by omega, hb⟩
    · rename_i hlt3
      cases hidx : cum.findIdx? (fun c => decide ((d : ℚ) < c)) with
      | none => rw [hidx] at hres; exact absurd hres (by simp)
      | some i =>
        rw [hidx] at hres
        dsimp only at hres
        have hilen : i < cum.length := (List.findIdx?_eq_some_iff_findIdx_eq.1 hidx).1
        by_cases hmem : i ∈ acc
        · rw [if_pos hmem] at hres
          exact ih acc res hnd hb hlen hres
        · rw [if_neg hmem] at hres
          by_cases hn : i < numT
          · rw [if_pos hn] at hres
            refine ih (acc ++ [i]) res ?_ ?_ ?_ hres
            · rw [List.nodup_append]
              refine ⟨hnd, by simp, ?_⟩
              intro x hx hx2
              simp only [List.mem_singleton] at hx2
              subst hx2
              exact hmem hx
            · intro x hx
              rcases List.mem_append.1 hx with hx | hx
              · exact hb x hx
              · simp only [List.mem_singleton] at hx
                subst hx
                exact ⟨hn, hilen⟩
            · simp only [List.length_append, List.length_singleton]
              omega
          · rw [if_neg hn] at hres
            exact absurd hres (by simp)

theorem chancePct_sum (l : List ℚ) (hs : l.sum ≠ 0) : (chancePct l).sum = 100 := by
  unfold chancePct
  have hfun : (fun c => c / l.sum * 100) = fun c => c * (100 / l.sum) :=
    funext fun c => by ring
  rw [hfun, List.sum_map_mul_right, List.map_id']
  rw [mul_comm, div_mul_cancel₀ _ hs]

theorem standardChances_sum : standardChances.sum = 1000 := by
  norm_num [standardChances]

theorem standardChances_int : ∀ c ∈ standardChances, IsIntQ c := by
  intro c hc
  simp only [standardChances, List.mem_cons, List.not_mem_nil, or_false] at hc
  rcases hc with rfl | rfl | rfl | rfl | rfl | rfl | rfl | rfl | rfl | rfl | rfl | rfl | rfl | rfl
  exacts [⟨250, by norm_num⟩, ⟨199, by norm_num⟩, ⟨156, by norm_num⟩, ⟨119, by norm_num⟩,
    ⟨88, by norm_num⟩, ⟨63, by norm_num⟩, ⟨43, by norm_num⟩, ⟨28, by norm_num⟩,
    ⟨17, by norm_num⟩, ⟨11, by norm_num⟩, ⟨8, by norm_num⟩, ⟨7, by norm_num⟩,
    ⟨6, by norm_num⟩, ⟨5, by norm_num⟩]

/-- C3: in every lottery run of genOrder with 14 lottery-eligible teams and
the standard weight table, any successful draw of the first three picks
yields three mutually distinct team indices below 14 (duplicates are
rejected and resampled), and the percentage-chance array computed before the
cumulative-sum conversion sums to exactly 100. -/
theorem lottery_winners_distinct_pct_sum (teams : List Team) (draws : List Nat)
    (f3 : List Nat) (hlen : teams.length = 14)
    (hpick : pickFirstThree (cumsum (updateChances standardChances teams true))
        teams.length draws [] = some f3) :
    f3.Nodup ∧ f3.length = 3 ∧ (∀ i ∈ f3, i < 14) ∧
    (chancePct (updateChances standardChances teams true)).sum = 100 := by
  have hsum : (updateChances standardChances teams true).sum = 1000 := by
    rw [(updateChances_final_spec standardChances teams standardChances_int).1,
      standardChances_sum]
  have hspec := pickFirstThree_spec _ _ draws [] f3 List.nodup_nil (by simp) (by simp) hpick
  refine ⟨hspec.1, hspec.2.1, ?_, ?_⟩
  · intro i hi
    have := (hspec.2.2 i hi).1
    omega
  · exact chancePct_sum _ (by rw [hsum]; norm_num)

/-- Witness for C3: 14 distinct-winp teams, draws 0 / 250 / 449 select the
three distinct winners 0, 1, 2. -/
theorem lottery_winners_distinct_pct_sum_witness :
    ([0, 1, 2] : List ℕ).Nodup ∧ ([0, 1, 2] : List ℕ).length = 3 ∧
    (∀ i ∈ ([0, 1, 2] : List ℕ), i < 14) ∧
    (chancePct (updateChances standardChances teams14 true)).sum = 100 := by
  have hnd : (teams14.map Team.winp).Nodup := by decide
  have hU : updateChances standardChances teams14 true = standardChances :=
    updateChancesGo_all_single true _ (winpGroups_single_of_nodup teams14 hnd) standardChances 0
  have hpick : pickFirstThree (cumsum (updateChances standardChances teams14 true))
      teams14.length [0, 250, 449] [] = some [0, 1, 2] := by
    rw [hU]
    norm_num [cumsum, cumsumGo, pickFirstThree, standardChances, List.findIdx?, teams14]
  exact lottery_winners_distinct_pct_sum teams14 [0, 250, 449] [0, 1, 2] rfl hpick

/- ---------------------------------------------------------------------- -/
/- C1: genOrder round coverage and pick deletion                           -/
/- ---------------------------------------------------------------------- -/

/-- Mapping a projection over `mapWithIdx` forgets the index whenever the
projection ignores it. -/
theorem map_mapWithIdx {α β γ : Type _} (f : Nat → α → β) (g : β → γ) (h : α → γ)
    (hgh : ∀ i a, g (f i a) = h a) :
    ∀ (i : Nat) (l : List α), (mapWithIdx f i l).map g = l.map h := by
  intro i l
  induction l generalizing i with
  | nil => rfl
  | cons a l ih => simp [mapWithIdx, hgh, ih]

/-- Every element produced by `mapWithIdx` satisfies any property satisfied
by every `f i a`. -/
theorem mapWithIdx_forall {α β : Type _} (f : Nat → α → β) (P : β → Prop)
    (hP : ∀ i a, P (f i a)) :
    ∀ (i : Nat) (l : List α), ∀ b ∈ mapWithIdx f i l, P b := by
  intro i l
  induction l generalizing i with
  | nil => intro b hb; simp [mapWithIdx] at hb
  | cons a l ih =>
    intro b hb
    simp only [mapWithIdx, List.mem_cons] at hb
    rcases hb with hb | hb
    · exact hb ▸ hP i a
    · exact ih (i + 1) b hb

/-- Reading every position of a list with `getD` over its index range
reproduces the list. -/
theorem map_getD_range {α : Type _} (l : List α) (d : α) :
    (List.range l.length).map (fun i => l.getD i d) = l := by
  induction l with
  | nil => rfl
  | cons a l ih =>
    rw [List.length_cons, List.range_succ_eq_map, List.map_cons, List.map_map]
    have hc : ((fun i => (a :: l).getD i d) ∘ Nat.succ) = fun i => l.getD i d := by
      funext i
      simp [Function.comp, List.getD_cons_succ]
    rw [List.getD_cons_zero, hc, ih]

/-- The tid read through `getD` over the index range is the tid column. -/
theorem range_map_getD_tid (ts : List Team) :
    (List.range ts.length).map (fun i => (ts.getD i default).tid) = ts.map Team.tid := by
  have h : (fun i => (ts.getD i default).tid)
      = Team.tid ∘ (fun i => ts.getD i default) := rfl
  rw [h, ← List.map_map, map_getD_range]

/-- `List.modify` does not change a projection the modifier preserves. -/
theorem modify_map_proj {α β : Type _} (f : α → α) (g : α → β)
    (hfg : ∀ a, g (f a) = g a) :
    ∀ (i : Nat) (l : List α), (List.modify f i l).map g = l.map g := by
  intro i l
  induction l generalizing i with
  | nil => cases i <;> simp [List.modify, List.modifyTailIdx]
  | cons a l ih =>
    cases i with
    | zero => simp [List.modify, hfg]
    | succ j =>
      rw [show List.modify f (j + 1) (a :: l) = a :: List.modify f j l from by
        simp [List.modify]]
      simp [ih j]

/-- The randVal-decrement fold of `genOrder` leaves the tid column alone. -/
theorem foldl_modify_map_tid :
    ∀ (idxs : List Nat) (ts : List Team),
      ((idxs.foldl (fun ts i =>
          List.modify (fun t => { t with randVal := t.randVal - 30 }) i ts) ts).map Team.tid)
        = ts.map Team.tid := by
  intro idxs
  induction idxs with
  | nil => intro ts; rfl
  | cons i r ih =>
    intro ts
    rw [List.foldl_cons, ih, modify_map_proj
      (fun t => { t with randVal := t.randVal - 30 }) Team.tid (fun a => rfl)]

/-- ... and the length. -/
theorem foldl_modify_length :
    ∀ (idxs : List Nat) (ts : List Team),
      (idxs.foldl (fun ts i =>
          List.modify (fun t => { t with randVal := t.randVal - 30 }) i ts) ts).length
        = ts.length := by
  intro idxs
  induction idxs with
  | nil => intro ts; rfl
  | cons i r ih => intro ts; rw [List.foldl_cons, ih, List.length_modify]

/-- When every stored pick's dpid appears among the fetched dpids, the
deletion loop empties the store. -/
theorem deletePicks_all_fetched :
    ∀ (fetched store : List DraftPick),
      (∀ p ∈ store, p.dpid ∈ fetched.map DraftPick.dpid) →
      deletePicks store fetched = [] := by
  intro fetched
  induction fetched with
  | nil =>
    intro store h
    cases store with
    | nil => rfl
    | cons a s => exact absurd (h a (List.mem_cons_self a s)) (by simp)
  | cons dp f ih =>
    intro store h
    rw [show deletePicks store (dp :: f)
        = deletePicks (store.filter (fun p => p.dpid != dp.dpid)) f from rfl]
    apply ih
    intro p hp
    rw [List.mem_filter] at hp
    have h2 := h p hp.1
    simp only [List.map_cons, List.mem_cons] at h2
    rcases h2 with h2 | h2
    · exact absurd h2 (by simpa using hp.2)
    · exact h2

/-- `genOrder` deletes every pick it fetched: the store it consumed is
emptied. -/
theorem deletePicks_self (picks : List DraftPick) : deletePicks picks picks = [] :=
  deletePicks_all_fetched picks picks (fun p hp => List.mem_map_of_mem DraftPick.dpid hp)

/-- The three lottery winners followed by the remaining indices permute the
full index range. -/
theorem sel_append_unsel_perm (n : Nat) (f3 : List Nat) (hnd : f3.Nodup)
    (hb : ∀ i ∈ f3, i < n) :
    (f3 ++ (List.range n).filter (fun i => decide (i ∉ f3))).Perm (List.range n) := by
  have h1 : ((List.range n).filter (fun i => decide (i ∈ f3))).Perm f3 := by
    rw [List.perm_ext_iff_of_nodup (List.Nodup.filter _ (List.nodup_range n)) hnd]
    intro x
    simp only [List.mem_filter, List.mem_range, decide_eq_true_eq]
    exact ⟨fun h => h.2, fun h => ⟨hb x h, h⟩⟩
  have h2 : (List.range n).filter (fun i => decide (i ∉ f3))
      = (List.range n).filter (fun i => !(decide (i ∈ f3))) := by
    apply List.filter_congr
    intro x _
    exact decide_not
  rw [h2]
  exact (List.Perm.append h1.symm (List.Perm.refl _)).trans
    (List.filter_append_perm (fun i => decide (i ∈ f3)) (List.range n))

/-- Filtering the assembled order by round keeps exactly the matching
segments. -/
theorem order_filter_rounds (lot mid r2 : List OrderEntry)
    (hlot : ∀ e ∈ lot, e.round = 1) (hmid : ∀ e ∈ mid, e.round = 1)
    (hr2 : ∀ e ∈ r2, e.round = 2) :
    (lot ++ mid ++ r2).filter (fun e => e.round == 1) = lot ++ mid ∧
    (lot ++ mid ++ r2).filter (fun e => e.round == 2) = r2 := by
  constructor
  · rw [List.filter_append, List.filter_append,
      List.filter_eq_self.mpr (fun a ha => by simp [hlot a ha]),
      List.filter_eq_self.mpr (fun a ha => by simp [hmid a ha]),
      List.filter_eq_nil_iff.mpr (fun a ha => by simp [hr2 a ha]),
      List.append_nil]
  · rw [List.filter_append, List.filter_append,
      List.filter_eq_nil_iff.mpr (fun a ha => by simp [hlot a ha]),
      List.filter_eq_nil_iff.mpr (fun a ha => by simp [hmid a ha]),
      List.filter_eq_self.mpr (fun a ha => by simp [hr2 a ha]),
      List.nil_append, List.nil_append]

/-- Every lottery entry is a round-1 entry. -/
theorem lotteryEntriesOf_round (picks : List DraftPick) (teams2 : List Team)
    (f3 : List Nat) : ∀ e ∈ lotteryEntriesOf picks teams2 f3, e.round = 1 :=
  mapWithIdx_forall _ (fun (e : OrderEntry) => e.round = 1) (fun i a => rfl) 0 f3

/-- Every non-lottery round-1 entry is a round-1 entry. -/
theorem restEntriesOf_round (picks : List DraftPick) (teams2 : List Team)
    (f3 : List Nat) : ∀ e ∈ restEntriesOf picks teams2 f3, e.round = 1 :=
  mapWithIdx_forall _ (fun (e : OrderEntry) => e.round = 1) (fun i a => rfl) 0
    ((List.range teams2.length).filter (fun i => decide (i ∉ f3)))

/-- Every round-2 entry is a round-2 entry. -/
theorem round2EntriesOf_round (picks : List DraftPick) (teams2 : List Team) :
    ∀ e ∈ round2EntriesOf picks teams2, e.round = 2 :=
  mapWithIdx_forall _ (fun (e : OrderEntry) => e.round = 2) (fun i a => rfl) 0
    (List.insertionSort round2Le teams2)

/-- The round-1 originalTids of a successful branch permute the tid column
of the post-lottery team list. -/
theorem genOrder_branch_round1 (picks : List DraftPick) (teams2 : List Team)
    (f3 : List Nat) (hnd3 : f3.Nodup) (hb3 : ∀ i ∈ f3, i < teams2.length) :
    (((lotteryEntriesOf picks teams2 f3 ++ restEntriesOf picks teams2 f3
        ++ round2EntriesOf picks teams2).filter (fun e => e.round == 1)).map
      OrderEntry.originalTid).Perm (teams2.map Team.tid) := by
  obtain ⟨hf1, _⟩ := order_filter_rounds _ _ _
    (lotteryEntriesOf_round picks teams2 f3)
    (restEntriesOf_round picks teams2 f3)
    (round2EntriesOf_round picks teams2)
  rw [hf1, List.map_append]
  unfold lotteryEntriesOf restEntriesOf
  rw [map_mapWithIdx _ OrderEntry.originalTid (fun i => (teams2.getD i default).tid)
      (fun i a => rfl) 0 f3,
    map_mapWithIdx _ OrderEntry.originalTid (fun i => (teams2.getD i default).tid)
      (fun i a => rfl) 0 ((List.range teams2.length).filter (fun i => decide (i ∉ f3))),
    ← List.map_append]
  have hp := (sel_append_unsel_perm teams2.length f3 hnd3 hb3).map
    (fun i => (teams2.getD i default).tid)
  rw [range_map_getD_tid] at hp
  exact hp

/-- The round-2 originalTids of a successful branch permute the tid column
of the post-lottery team list. -/
theorem genOrder_branch_round2 (picks : List DraftPick) (teams2 : List Team)
    (f3 : List Nat) :
    (((lotteryEntriesOf picks teams2 f3 ++ restEntriesOf picks teams2 f3
        ++ round2EntriesOf picks teams2).filter (fun e => e.round == 2)).map
      OrderEntry.originalTid).Perm (teams2.map Team.tid) := by
  obtain ⟨_, hf2⟩ := order_filter_rounds _ _ _
    (lotteryEntriesOf_round picks teams2 f3)
    (restEntriesOf_round picks teams2 f3)
    (round2EntriesOf_round picks teams2)
  rw [hf2]
  unfold round2EntriesOf
  rw [map_mapWithIdx _ OrderEntry.originalTid Team.tid (fun i a => rfl) 0
    (List.insertionSort round2Le teams2)]
  exact (List.perm_insertionSort round2Le teams2).map Team.tid

/-- C1: whenever `genOrder` completes (for any season, team list with
distinct tids, random streams and pick store), the persisted order's
round-1 entries carry each team's tid exactly once as originalTid, the
round-2 entries likewise, and no draftPicks records remain stored. -/
theorem genOrder_round_coverage
    (season numTeams : Nat) (teams0 : List Team) (rv : Nat → Int)
    (draws : List Nat) (picks0 : List DraftPick)
    (order : List OrderEntry) (rest : List DraftPick)
    (hnd : (teams0.map Team.tid).Nodup)
    (h : genOrder season numTeams teams0 rv draws picks0 = some (order, rest)) :
    ((order.filter (fun e => e.round == 1)).map OrderEntry.originalTid).Perm
        (teams0.map Team.tid) ∧
    ((order.filter (fun e => e.round == 2)).map OrderEntry.originalTid).Perm
        (teams0.map Team.tid) ∧
    (∀ t ∈ teams0.map Team.tid,
        ((order.filter (fun e => e.round == 1)).map OrderEntry.originalTid).count t = 1) ∧
    (∀ t ∈ teams0.map Team.tid,
        ((order.filter (fun e => e.round == 2)).map OrderEntry.originalTid).count t = 1) ∧
    rest = [] := by
  simp only [genOrder] at h
  cases hpick : pickFirstThree
      (cumsum (updateChances standardChances (lotterySort rv teams0) true))
      (lotterySort rv teams0).length draws [] with
  | none => rw [hpick] at h; exact absurd h (by simp)
  | some f3 =>
    rw [hpick] at h
    dsimp only at h
    generalize hpk : (if picks0.isEmpty then genPicksDefault season numTeams
      else picks0) = picks at h
    generalize ht2 : List.foldl (fun ts i =>
        List.modify (fun t => { t with randVal := t.randVal - 30 }) i ts)
        (lotterySort rv teams0) f3 = teams2 at h
    obtain ⟨hnd3, hlen3, hb3⟩ := pickFirstThree_spec _ _ draws [] f3
      (by simp) (by simp) (by simp) hpick
    have hb3' : ∀ i ∈ f3, i < teams2.length := by
      intro i hi
      rw [← ht2, foldl_modify_length]
      exact (hb3 i hi).1
    have hpermt2 : (teams2.map Team.tid).Perm (teams0.map Team.tid) := by
      rw [← ht2, foldl_modify_map_tid]
      unfold lotterySort
      have hp := (List.perm_insertionSort lotteryLe
        (mapWithIdx (fun i t => { t with randVal := rv i }) 0 teams0)).map Team.tid
      rwa [map_mapWithIdx (fun i t => { t with randVal := rv i }) Team.tid Team.tid
        (fun i a => rfl) 0 teams0] at hp
    split at h
    · rw [Option.some.injEq, Prod.mk.injEq] at h
      obtain ⟨horder, hrest⟩ := h
      subst horder
      subst hrest
      have h1 := (genOrder_branch_round1 picks teams2 f3 hnd3 hb3').trans hpermt2
      have h2 := (genOrder_branch_round2 picks teams2 f3).trans hpermt2
      exact ⟨h1, h2,
        fun t ht => by rw [h1.count_eq]; exact List.count_eq_one_of_mem hnd ht,
        fun t ht => by rw [h2.count_eq]; exact List.count_eq_one_of_mem hnd ht,
        deletePicks_self picks⟩
    · exact absurd h (by simp)

/-- Witness for C1: the three-team league `teamsW` with full pick store
`picksW`, identity shuffle and draws 0 / 250 / 449 produces `orderW`, whose
round-1 and round-2 originalTids each cover the tids 0, 1, 2 exactly once,
with no picks left. -/
theorem genOrder_round_coverage_witness :
    (teamsW.map Team.tid).Nodup ∧
    ((orderW.filter (fun e => e.round == 1)).map OrderEntry.originalTid).Perm
        (teamsW.map Team.tid) ∧
    ((orderW.filter (fun e => e.round == 2)).map OrderEntry.originalTid).Perm
        (teamsW.map Team.tid) ∧
    (∀ t ∈ teamsW.map Team.tid,
        ((orderW.filter (fun e => e.round == 1)).map OrderEntry.originalTid).count t = 1) ∧
    (∀ t ∈ teamsW.map Team.tid,
        ((orderW.filter (fun e => e.round == 2)).map OrderEntry.originalTid).count t = 1) ∧
    ([] : List DraftPick) = [] := by
  have hnd : (teamsW.map Team.tid).Nodup := by decide
  have hsort : lotterySort (fun i => (i : Int)) teamsW
      = [⟨0, 0, -1, 0⟩, ⟨1, 1, -1, 1⟩, ⟨2, 2, -1, 2⟩] := by
    norm_num [lotterySort, mapWithIdx, List.insertionSort, List.orderedInsert,
      lotteryLe, lotteryCmp, teamsW]
  have hndw : (([⟨0, 0, -1, 0⟩, ⟨1, 1, -1, 1⟩, ⟨2, 2, -1, 2⟩] : List Team).map
      Team.winp).Nodup := by decide
  have hU : updateChances standardChances
      [⟨0, 0, -1, 0⟩, ⟨1, 1, -1, 1⟩, ⟨2, 2, -1, 2⟩] true = standardChances :=
    updateChancesGo_all_single true _ (winpGroups_single_of_nodup _ hndw)
      standardChances 0
  have hpickW : pickFirstThree
      (cumsum (updateChances standardChances
        (lotterySort (fun i => (i : Int)) teamsW) true))
      (lotterySort (fun i => (i : Int)) teamsW).length [0, 250, 449] []
      = some [0, 1, 2] := by
    rw [hsort, hU]
    norm_num [cumsum, cumsumGo, pickFirstThree, standardChances, List.findIdx?]
  have hg : genOrder 2017 3 teamsW (fun i => (i : Int)) [0, 250, 449] picksW
      = some (orderW, []) := by
    simp only [genOrder]
    rw [hpickW]
    dsimp only
    rw [hsort]
    have h2 : List.foldl (fun (ts : List Team) (i : Nat) =>
        List.modify (fun t => { t with randVal := t.randVal - 30 }) i ts)
        ([⟨0, 0, -1, 0⟩, ⟨1, 1, -1, 1⟩, ⟨2, 2, -1, 2⟩] : List Team) [0, 1, 2]
        = [⟨0, 0, -1, -30⟩, ⟨1, 1, -1, -29⟩, ⟨2, 2, -1, -28⟩] := by rfl
    rw [h2]
    simp only [lotteryEntriesOf, restEntriesOf, round2EntriesOf]
    have h3 : List.insertionSort round2Le
        [⟨0, 0, -1, -30⟩, ⟨1, 1, -1, -29⟩, ⟨2, 2, -1, -28⟩]
        = [⟨0, 0, -1, -30⟩, ⟨1, 1, -1, -29⟩, ⟨2, 2, -1, -28⟩] := by
      norm_num [List.insertionSort, List.orderedInsert, round2Le, round2Cmp]
    rw [h3]
    rfl
  exact ⟨hnd, genOrder_round_coverage 2017 3 teamsW (fun i => (i : Int))
    [0, 250, 449] picksW orderW [] hnd hg⟩
